import Mathlib

/-!
Verification development for the experimental Cockroach table-based client
interface (`client/table.go`).  The table layer maps structured records onto a
sorted key-value store: an order-preserving key codec, a value marshaler, a
schema-binding registry, a key builder, batch operation builders and the scan
reconstructor are embedded below, and the spec's claims about them are proved.

Bytes are modelled as `List Nat` (each element intended `< 256`); Go errors are
modelled as `Except String`.  The `util/encoding` codec functions
(`EncodeBytes`, `EncodeVarint`, `EncodeUvarint`, `EncodeNumericFloat` and their
decoders) are not part of the excerpted source; they are modelled from the
spec, see the doc comments marked `Modelled from the spec:`.
-/

deriving instance DecidableEq for Except

namespace CrTable

set_option maxRecDepth 8192

/-- Byte-wise lexicographic strict order on byte strings (the order of
`bytes.Compare`): a proper prefix sorts before its extensions. -/
def lexLt : List Nat → List Nat → Bool
  | _, [] => false
  | [], _ :: _ => true
  | a :: as, b :: bs => if a < b then true else if a = b then lexLt as bs else false

theorem lexLt_irrefl (a : List Nat) : lexLt a a = false := by
  induction a with
  | nil => rfl
  | cons x xs ih => simp [lexLt, ih]

theorem lexLt_ne {a b : List Nat} (h : lexLt a b = true) : a ≠ b := by
  intro e; subst e; rw [lexLt_irrefl] at h; exact Bool.noConfusion h

theorem lexLt_cons_of_lt {a b : Nat} (as bs : List Nat) (h : a < b) :
    lexLt (a :: as) (b :: bs) = true := by
  simp [lexLt, h]

theorem lexLt_cons_same (a : Nat) (as bs : List Nat) :
    lexLt (a :: as) (a :: bs) = lexLt as bs := by
  simp [lexLt]

/-- `lexLt` on equal-length appends reduces to the heads when they differ. -/
theorem lexLt_append_left {a b : List Nat} (ha : lexLt a b = true)
    (hlen : a.length = b.length) (s t : List Nat) :
    lexLt (a ++ s) (b ++ t) = true := by
  induction a generalizing b with
  | nil =>
    cases b with
    | nil => rw [lexLt_irrefl] at ha; exact Bool.noConfusion ha
    | cons y ys => exact absurd hlen (by simp)
  | cons x xs ih =>
    cases b with
    | nil => simp [lexLt] at ha
    | cons y ys =>
      simp only [List.cons_append]
      by_cases hxy : x < y
      · exact lexLt_cons_of_lt _ _ hxy
      · simp only [lexLt, hxy, if_false] at ha ⊢
        by_cases hxe : x = y
        · simp only [hxe, if_true] at ha ⊢
          exact ih ha (by simpa using hlen)
        · simp [hxe] at ha

/-- Big-endian base-256 digits of a natural number, fuel-driven so that the
definition reduces by `rfl`/`decide`.  `beBytesF f n` is correct when
`n ≤ f`. -/
def beBytesF : Nat → Nat → List Nat
  | _, 0 => []
  | 0, _ + 1 => []
  | f + 1, n + 1 => beBytesF f ((n + 1) / 256) ++ [(n + 1) % 256]

/-- Minimal big-endian base-256 digit string of `n` (empty for `0`). -/
def beBytes (n : Nat) : List Nat := beBytesF n n

theorem beBytesF_congr : ∀ n f g, n ≤ f → n ≤ g → beBytesF f n = beBytesF g n := by
  intro n
  induction n using Nat.strong_induction_on with
  | _ n ih =>
    intro f g hf hg
    match n, f, g with
    | 0, f, g => cases f <;> cases g <;> rfl
    | n + 1, f + 1, g + 1 =>
      simp only [beBytesF]
      congr 1
      have hdiv : (n + 1) / 256 < n + 1 := Nat.div_lt_self (Nat.succ_pos n) (by omega)
      exact ih _ hdiv _ _ (by omega) (by omega)

theorem beBytes_zero : beBytes 0 = [] := rfl

theorem beBytes_succ (n : Nat) (h : n ≠ 0) :
    beBytes n = beBytes (n / 256) ++ [n % 256] := by
  match n, h with
  | n + 1, _ =>
    show beBytesF (n + 1) (n + 1) = _
    have hdiv : (n + 1) / 256 < n + 1 := Nat.div_lt_self (Nat.succ_pos n) (by omega)
    simp only [beBytesF]
    congr 1
    exact beBytesF_congr _ _ _ (by omega) (le_refl _)

theorem beBytes_digits : ∀ n, ∀ b ∈ beBytes n, b < 256 := by
  intro n
  induction n using Nat.strong_induction_on with
  | _ n ih =>
    intro b hb
    rcases Nat.eq_zero_or_pos n with h0 | hpos
    · subst h0; simp [beBytes_zero] at hb
    · rw [beBytes_succ n (Nat.pos_iff_ne_zero.mp hpos)] at hb
      rcases List.mem_append.mp hb with h | h
      · exact ih _ (Nat.div_lt_self hpos (by omega)) b h
      · simp at h; subst h; exact Nat.mod_lt _ (by omega)

/-- Numeric value of a big-endian digit string. -/
def beVal : List Nat → Nat
  | [] => 0
  | b :: bs => b * 256 ^ bs.length + beVal bs

theorem beVal_append_singleton (xs : List Nat) (d : Nat) :
    beVal (xs ++ [d]) = 256 * beVal xs + d := by
  induction xs with
  | nil => simp [beVal]
  | cons a xs ih =>
    have hlen : (xs ++ [d]).length = xs.length + 1 := by simp
    simp only [List.cons_append, beVal, List.append_eq, ih, hlen, pow_succ]
    ring

theorem beVal_beBytes : ∀ n, beVal (beBytes n) = n := by
  intro n
  induction n using Nat.strong_induction_on with
  | _ n ih =>
    rcases Nat.eq_zero_or_pos n with h0 | hpos
    · subst h0; rfl
    · rw [beBytes_succ n (Nat.pos_iff_ne_zero.mp hpos), beVal_append_singleton,
        ih _ (Nat.div_lt_self hpos (by omega))]
      omega

theorem beVal_lt (bs : List Nat) (h : ∀ b ∈ bs, b < 256) :
    beVal bs < 256 ^ bs.length := by
  induction bs with
  | nil => simp [beVal]
  | cons a as ih =>
    have ha : a < 256 := h a (List.mem_cons_self a as)
    have hrest := ih (fun b hb => h b (List.mem_cons_of_mem a hb))
    simp only [beVal, List.length_cons, pow_succ]
    calc a * 256 ^ as.length + beVal as
        < a * 256 ^ as.length + 256 ^ as.length := by omega
      _ = (a + 1) * 256 ^ as.length := by ring
      _ ≤ 256 * 256 ^ as.length := by
          exact Nat.mul_le_mul_right _ (by omega)
      _ = 256 ^ as.length * 256 := by ring

theorem beBytes_len_le_iff : ∀ n k, (beBytes n).length ≤ k ↔ n < 256 ^ k := by
  intro n
  induction n using Nat.strong_induction_on with
  | _ n ih =>
    intro k
    rcases Nat.eq_zero_or_pos n with h0 | hpos
    · subst h0
      simp only [beBytes_zero, List.length_nil, Nat.zero_le, true_iff]
      exact Nat.pos_pow_of_pos k (by omega)
    · rw [beBytes_succ n (Nat.pos_iff_ne_zero.mp hpos)]
      cases k with
      | zero =>
        simp only [List.length_append, List.length_cons, List.length_nil, pow_zero]
        omega
      | succ k =>
        have hdiv : n / 256 < n := Nat.div_lt_self hpos (by omega)
        have hiff := ih _ hdiv k
        have hpow : (256 : Nat) ^ (k + 1) = 256 * 256 ^ k := by ring
        simp only [List.length_append, List.length_cons, List.length_nil, hpow]
        omega

theorem beBytes_len_mono {m n : Nat} (h : m ≤ n) :
    (beBytes m).length ≤ (beBytes n).length := by
  apply (beBytes_len_le_iff m _).mpr
  exact Nat.lt_of_le_of_lt h ((beBytes_len_le_iff n _).mp (le_refl _))

theorem beBytes_ne_nil {n : Nat} (h : n ≠ 0) : beBytes n ≠ [] := by
  intro he
  have : (beBytes n).length ≤ 0 := by rw [he]; simp
  have := (beBytes_len_le_iff n 0).mp this
  simp at this
  exact h this

/-- Equal-length digit strings compare lexicographically exactly as their
big-endian values. -/
theorem lexLt_iff_beVal_lt : ∀ b1 b2 : List Nat, b1.length = b2.length →
    (∀ b ∈ b1, b < 256) → (∀ b ∈ b2, b < 256) →
    (lexLt b1 b2 = true ↔ beVal b1 < beVal b2) := by
  intro b1
  induction b1 with
  | nil =>
    intro b2 hlen _ _
    cases b2 with
    | nil => simp [lexLt, beVal]
    | cons y ys => simp at hlen
  | cons x xs ih =>
    intro b2 hlen h1 h2
    cases b2 with
    | nil => simp at hlen
    | cons y ys =>
      have hlen' : xs.length = ys.length := by simpa using hlen
      have hx : x < 256 := h1 x (List.mem_cons_self x xs)
      have hy : y < 256 := h2 y (List.mem_cons_self y ys)
      have hxs := fun b hb => h1 b (List.mem_cons_of_mem x hb)
      have hys := fun b hb => h2 b (List.mem_cons_of_mem y hb)
      have hvx : beVal xs < 256 ^ xs.length := beVal_lt xs hxs
      have hvy : beVal ys < 256 ^ ys.length := beVal_lt ys hys
      have hx1 : (x + 1) * 256 ^ ys.length = x * 256 ^ ys.length + 256 ^ ys.length := by
        ring
      have hy1 : (y + 1) * 256 ^ ys.length = y * 256 ^ ys.length + 256 ^ ys.length := by
        ring
      rw [hlen'] at hvx
      simp only [beVal, hlen']
      by_cases hlt : x < y
      · rw [lexLt_cons_of_lt _ _ hlt]
        simp only [true_iff]
        calc x * 256 ^ ys.length + beVal xs
            < (x + 1) * 256 ^ ys.length := by omega
          _ ≤ y * 256 ^ ys.length := Nat.mul_le_mul_right _ (by omega)
          _ ≤ y * 256 ^ ys.length + beVal ys := Nat.le_add_right _ _
      · by_cases heq : x = y
        · subst heq
          rw [lexLt_cons_same, ih ys hlen' hxs hys]
          omega
        · have hgt : y < x := by omega
          have hfalse : lexLt (x :: xs) (y :: ys) = false := by
            simp [lexLt, hlt, heq]
          rw [hfalse]
          simp only [Bool.false_eq_true, false_iff, not_lt]
          have hstep : (y + 1) * 256 ^ ys.length ≤ x * 256 ^ ys.length :=
            Nat.mul_le_mul_right _ (by omega)
          omega

/-- Complementing every digit reverses the value: `255 - ·` maps value `v` of a
`k`-digit string to `256^k - 1 - v`. -/
theorem beVal_flip (bs : List Nat) (h : ∀ b ∈ bs, b < 256) :
    beVal (bs.map (fun b => 255 - b)) = 256 ^ bs.length - 1 - beVal bs := by
  induction bs with
  | nil => simp [beVal]
  | cons a as ih =>
    have ha : a < 256 := h a (List.mem_cons_self a as)
    have has := fun b hb => h b (List.mem_cons_of_mem a hb)
    have hv : beVal as < 256 ^ as.length := beVal_lt as has
    have hsub : (255 - a) * 256 ^ as.length = 255 * 256 ^ as.length - a * 256 ^ as.length :=
      Nat.sub_mul 255 a _
    have hmul : a * 256 ^ as.length ≤ 255 * 256 ^ as.length :=
      Nat.mul_le_mul_right _ (by omega)
    simp only [List.map_cons, beVal, List.length_map, ih has, List.length_cons, pow_succ,
      hsub]
    have hpos : 0 < 256 ^ as.length := Nat.pos_pow_of_pos _ (by omega)
    omega

/- ===================== modelled codec primitives ===================== -/

def decodeErrMsg : String := "insufficient bytes to decode value"

/-- Modelled from the spec: `util/encoding.EncodeBytes` body (escape-delimited
byte-string encoding).  Each `0x00` content byte is escaped as `0x00 0xff`; the
encoding is terminated by `0x00 0x01`, so no encoding is a prefix of another
unless the source is a true prefix, and byte-wise order is preserved. -/
def ebFrag : List Nat → List Nat
  | [] => [0, 1]
  | b :: bs => (if b = 0 then [0, 255] else [b]) ++ ebFrag bs

/-- Modelled from the spec: `util/encoding.EncodeBytes` appends the escape
encoding of `s` to `b`. -/
def EncodeBytes (b s : List Nat) : List Nat := b ++ ebFrag s

/-- Modelled from the spec: `util/encoding.DecodeBytes`, returning the
remainder and the decoded byte string.  Decoding a buffer that was not
produced by `EncodeBytes` (plus arbitrary suffix) is an error (the Go code
treats it as undefined behaviour to avoid). -/
def ebDecode : List Nat → Except String (List Nat × List Nat)
  | [] => .error decodeErrMsg
  | [_] => .error decodeErrMsg
  | b :: c :: rest =>
    if b = 0 then
      if c = 1 then .ok (rest, [])
      else if c = 255 then
        match ebDecode rest with
        | .ok (r, s) => .ok (r, 0 :: s)
        | .error e => .error e
      else .error decodeErrMsg
    else
      match ebDecode (c :: rest) with
      | .ok (r, s) => .ok (r, b :: s)
      | .error e => .error e

/-- Modelled from the spec: `util/encoding.DecodeBytes` with the conventional
two-argument shape (`b` is consumed, decoded value returned second). -/
def DecodeBytes (b : List Nat) : Except String (List Nat × List Nat) := ebDecode b

theorem ebFrag_ne_nil (s : List Nat) : ebFrag s ≠ [] := by
  cases s with
  | nil => simp [ebFrag]
  | cons b bs => simp [ebFrag]; split <;> simp

theorem ebFrag_cons_zero (bs : List Nat) : ebFrag (0 :: bs) = 0 :: 255 :: ebFrag bs := by
  simp [ebFrag]

theorem ebFrag_cons_pos (b : Nat) (bs : List Nat) (h : b ≠ 0) :
    ebFrag (b :: bs) = b :: ebFrag bs := by
  simp [ebFrag, h]

theorem ebDecode_ebFrag (s : List Nat) : ∀ rest,
    ebDecode (ebFrag s ++ rest) = .ok (rest, s) := by
  induction s with
  | nil => intro rest; simp [ebFrag, ebDecode]
  | cons b bs ih =>
    intro rest
    have hne : ebFrag bs ++ rest ≠ [] := by
      intro h
      exact ebFrag_ne_nil bs (List.append_eq_nil.mp h).1
    obtain ⟨x, xs, hfr⟩ := List.exists_cons_of_ne_nil hne
    by_cases hb : b = 0
    · subst hb
      rw [ebFrag_cons_zero, List.cons_append, List.cons_append, hfr]
      have hred : ebDecode (0 :: 255 :: x :: xs) =
          (match ebDecode (x :: xs) with
           | .ok (r, s) => .ok (r, 0 :: s)
           | .error e => .error e) := rfl
      rw [hred, ← hfr, ih rest]
    · rw [ebFrag_cons_pos b bs hb, List.cons_append, hfr]
      have hred : ebDecode (b :: x :: xs) =
          if b = 0 then
            if x = 1 then .ok (xs, [])
            else if x = 255 then
              match ebDecode xs with
              | .ok (r, s) => .ok (r, 0 :: s)
              | .error e => .error e
            else .error decodeErrMsg
          else
            match ebDecode (x :: xs) with
            | .ok (r, s) => .ok (r, b :: s)
            | .error e => .error e := rfl
      rw [hred, if_neg hb, ← hfr, ih rest]

/-- `EncodeBytes` is strictly monotone: byte-wise order of the sources gives
lexicographic order of the encodings. -/
theorem ebFrag_mono : ∀ s1 s2 : List Nat, lexLt s1 s2 = true →
    lexLt (ebFrag s1) (ebFrag s2) = true := by
  intro s1
  induction s1 with
  | nil =>
    intro s2 h
    cases s2 with
    | nil => rw [lexLt_irrefl] at h; exact Bool.noConfusion h
    | cons c cs =>
      by_cases hc : c = 0
      · subst hc
        simp [ebFrag, lexLt]
      · have hcpos : 0 < c := Nat.pos_of_ne_zero hc
        simp only [ebFrag, if_neg hc, List.singleton_append]
        exact lexLt_cons_of_lt _ _ hcpos
  | cons b bs ih =>
    intro s2 h
    cases s2 with
    | nil => simp [lexLt] at h
    | cons c cs =>
      simp only [lexLt] at h
      by_cases hbc : b < c
      · simp only [ebFrag]
        by_cases hb : b = 0
        · subst hb
          have hc : c ≠ 0 := by omega
          simp only [if_pos rfl, if_neg hc, List.cons_append, List.nil_append,
            List.singleton_append]
          exact lexLt_cons_of_lt _ _ hbc
        · have hc : c ≠ 0 := by omega
          simp only [if_neg hb, if_neg hc, List.singleton_append]
          exact lexLt_cons_of_lt _ _ hbc
      · simp only [if_neg hbc] at h
        by_cases hbe : b = c
        · subst hbe
          simp only [if_pos rfl] at h
          simp only [ebFrag]
          by_cases hb : b = 0
          · subst hb
            simp only [if_pos rfl, List.cons_append, List.nil_append,
              lexLt_cons_same]
            exact ih cs h
          · simp only [if_neg hb, List.singleton_append, lexLt_cons_same]
            exact ih cs h
        · simp [hbe] at h

theorem flip_flip (bs : List Nat) (h : ∀ b ∈ bs, b < 256) :
    (bs.map (fun b => 255 - b)).map (fun b => 255 - b) = bs := by
  induction bs with
  | nil => rfl
  | cons a as ih =>
    have ha : a < 256 := h a (List.mem_cons_self a as)
    simp only [List.map_cons, List.cons.injEq]
    exact ⟨by omega, ih (fun b hb => h b (List.mem_cons_of_mem a hb))⟩

theorem flip_digits (bs : List Nat) : ∀ b ∈ bs.map (fun b => 255 - b), b < 256 := by
  intro b hb
  rcases List.mem_map.mp hb with ⟨a, _, ha⟩
  omega

/-- Modelled from the spec: `util/encoding.EncodeVarint` body — a
variable-length, order-preserving signed integer encoding.  A tag byte records
sign and magnitude length (`0x90 + len` for non-negative values, `0x90 - len`
for negative ones, whose magnitude digits are complemented), so byte-wise
comparison matches numeric comparison, negatives sorting before
non-negatives. -/
def EncodeVarintFrag (n : Int) : List Nat :=
  if 0 ≤ n then (144 + (beBytes n.toNat).length) :: beBytes n.toNat
  else (144 - (beBytes (-n).toNat).length) :: (beBytes (-n).toNat).map (fun b => 255 - b)

/-- Modelled from the spec: `util/encoding.EncodeVarint` appends the
order-preserving encoding of `n` to `b`. -/
def EncodeVarint (b : List Nat) (n : Int) : List Nat := b ++ EncodeVarintFrag n

/-- Modelled from the spec: `util/encoding.DecodeVarint`, returning the
remainder and the decoded signed integer. -/
def DecodeVarint (bs : List Nat) : Except String (List Nat × Int) :=
  match bs with
  | [] => .error decodeErrMsg
  | tag :: rest =>
    if 144 ≤ tag then
      let l := tag - 144
      if rest.length < l then .error decodeErrMsg
      else .ok (rest.drop l, (beVal (rest.take l) : Int))
    else
      let l := 144 - tag
      if rest.length < l then .error decodeErrMsg
      else .ok (rest.drop l, -(beVal ((rest.take l).map (fun b => 255 - b)) : Int))

/-- Modelled from the spec: `util/encoding.EncodeUvarint` body — a
variable-length, order-preserving unsigned integer encoding (length-tagged
big-endian magnitude). -/
def EncodeUvarintFrag (n : Nat) : List Nat := (beBytes n).length :: beBytes n

/-- Modelled from the spec: `util/encoding.EncodeUvarint` appends the
order-preserving encoding of `n` to `b`. -/
def EncodeUvarint (b : List Nat) (n : Nat) : List Nat := b ++ EncodeUvarintFrag n

/-- Modelled from the spec: `util/encoding.DecodeUvarint`. -/
def DecodeUvarint (bs : List Nat) : Except String (List Nat × Nat) :=
  match bs with
  | [] => .error decodeErrMsg
  | l :: rest =>
    if rest.length < l then .error decodeErrMsg
    else .ok (rest.drop l, beVal (rest.take l))

theorem DecodeVarint_EncodeVarint (n : Int) (hlo : -(2 ^ 63) ≤ n) (rest : List Nat) :
    DecodeVarint (EncodeVarintFrag n ++ rest) = .ok (rest, n) := by
  by_cases hn : 0 ≤ n
  · simp only [EncodeVarintFrag, if_pos hn, List.cons_append, DecodeVarint]
    rw [if_pos (by omega)]
    have hl : 144 + (beBytes n.toNat).length - 144 = (beBytes n.toNat).length := by omega
    rw [hl, if_neg (by simp), List.take_left, List.drop_left, beVal_beBytes]
    simp [Int.toNat_of_nonneg hn]
  · have hneg : n < 0 := by omega
    have hm1 : 1 ≤ (-n).toNat := by omega
    have hm8 : (-n).toNat < 256 ^ 8 := by
      have : (-n).toNat ≤ 2 ^ 63 := by omega
      calc (-n).toNat ≤ 2 ^ 63 := this
        _ < 256 ^ 8 := by norm_num
    have hlen8 : (beBytes (-n).toNat).length ≤ 8 :=
      (beBytes_len_le_iff _ 8).mpr hm8
    have hlen1 : 1 ≤ (beBytes (-n).toNat).length := by
      rcases Nat.eq_zero_or_pos (beBytes (-n).toNat).length with h0 | h1
      · exfalso
        have := (beBytes_len_le_iff (-n).toNat 0).mp (by omega)
        omega
      · exact h1
    simp only [EncodeVarintFrag, if_neg hn, List.cons_append, DecodeVarint]
    rw [if_neg (by omega)]
    have hl : 144 - (144 - (beBytes (-n).toNat).length) = (beBytes (-n).toNat).length := by
      omega
    have hmaplen : ((beBytes (-n).toNat).map (fun b => 255 - b)).length
        = (beBytes (-n).toNat).length := by simp
    rw [hl, if_neg (by simp), ← hmaplen, List.take_left, List.drop_left]
    rw [flip_flip _ (beBytes_digits _), beVal_beBytes]
    have : ((-n).toNat : Int) = -n := Int.toNat_of_nonneg (by omega)
    rw [this]
    simp

theorem DecodeUvarint_EncodeUvarint (n : Nat) (rest : List Nat) :
    DecodeUvarint (EncodeUvarintFrag n ++ rest) = .ok (rest, n) := by
  simp only [EncodeUvarintFrag, List.cons_append, DecodeUvarint]
  rw [if_neg (by simp), List.take_left, List.drop_left, beVal_beBytes]

theorem EncodeVarintFrag_mono (n1 n2 : Int) (hlo : -(2 ^ 63) ≤ n1) (hlt : n1 < n2) :
    lexLt (EncodeVarintFrag n1) (EncodeVarintFrag n2) = true := by
  by_cases h1 : 0 ≤ n1
  · -- both non-negative
    have h2 : 0 ≤ n2 := by omega
    simp only [EncodeVarintFrag, if_pos h1, if_pos h2]
    have htn : n1.toNat < n2.toNat := by omega
    have hlenle : (beBytes n1.toNat).length ≤ (beBytes n2.toNat).length :=
      beBytes_len_mono (Nat.le_of_lt htn)
    rcases Nat.lt_or_ge (beBytes n1.toNat).length (beBytes n2.toNat).length with hll | hge
    · exact lexLt_cons_of_lt _ _ (by omega)
    · have heq : (beBytes n1.toNat).length = (beBytes n2.toNat).length := by omega
      rw [heq, lexLt_cons_same]
      rw [lexLt_iff_beVal_lt _ _ heq (beBytes_digits _) (beBytes_digits _)]
      rw [beVal_beBytes, beVal_beBytes]
      exact htn
  · by_cases h2 : 0 ≤ n2
    · -- n1 negative, n2 non-negative
      have hlen1 : 1 ≤ (beBytes (-n1).toNat).length := by
        rcases Nat.eq_zero_or_pos (beBytes (-n1).toNat).length with h0 | hp
        · exfalso
          have := (beBytes_len_le_iff (-n1).toNat 0).mp (by omega)
          omega
        · exact hp
      simp only [EncodeVarintFrag, if_neg h1, if_pos h2]
      exact lexLt_cons_of_lt _ _ (by omega)
    · -- both negative
      have hgt : (-n2).toNat < (-n1).toNat := by omega
      have hlenle : (beBytes (-n2).toNat).length ≤ (beBytes (-n1).toNat).length :=
        beBytes_len_mono (Nat.le_of_lt hgt)
      have hlen8 : (beBytes (-n1).toNat).length ≤ 8 := by
        apply (beBytes_len_le_iff _ 8).mpr
        have : (-n1).toNat ≤ 2 ^ 63 := by omega
        calc (-n1).toNat ≤ 2 ^ 63 := this
          _ < 256 ^ 8 := by norm_num
      simp only [EncodeVarintFrag, if_neg h1, if_neg h2]
      rcases Nat.lt_or_ge (beBytes (-n2).toNat).length (beBytes (-n1).toNat).length with hll | hge
      · exact lexLt_cons_of_lt _ _ (by omega)
      · have heq : (beBytes (-n1).toNat).length = (beBytes (-n2).toNat).length := by omega
        rw [heq, lexLt_cons_same]
        have hmlen : ((beBytes (-n1).toNat).map (fun b => 255 - b)).length
            = ((beBytes (-n2).toNat).map (fun b => 255 - b)).length := by
          simp [heq]
        rw [lexLt_iff_beVal_lt _ _ hmlen (flip_digits _) (flip_digits _)]
        rw [beVal_flip _ (beBytes_digits _), beVal_flip _ (beBytes_digits _)]
        rw [beVal_beBytes, beVal_beBytes]
        have hv1 : (-n1).toNat < 256 ^ (beBytes (-n1).toNat).length :=
          (beBytes_len_le_iff _ _).mp (le_refl _)
        simp only [List.length_map, heq]
        have hv1' : (-n1).toNat < 256 ^ (beBytes (-n2).toNat).length := by
          rw [← heq]; exact hv1
        omega

theorem EncodeUvarintFrag_mono (n1 n2 : Nat) (hlt : n1 < n2) :
    lexLt (EncodeUvarintFrag n1) (EncodeUvarintFrag n2) = true := by
  simp only [EncodeUvarintFrag]
  have hlenle : (beBytes n1).length ≤ (beBytes n2).length :=
    beBytes_len_mono (Nat.le_of_lt hlt)
  rcases Nat.lt_or_ge (beBytes n1).length (beBytes n2).length with hll | hge
  · exact lexLt_cons_of_lt _ _ hll
  · have heq : (beBytes n1).length = (beBytes n2).length := by omega
    rw [heq, lexLt_cons_same]
    rw [lexLt_iff_beVal_lt _ _ heq (beBytes_digits _) (beBytes_digits _)]
    rw [beVal_beBytes, beVal_beBytes]
    exact hlt

/- ===================== floating point (bit-level model) ===================== -/

/-- A Go `float64` modelled exactly by its IEEE-754 bit pattern. -/
abbrev F64 := { bits : Nat // bits < 2 ^ 64 }

/-- NaN: exponent field all ones with a non-zero mantissa. -/
def F64.isNaN (f : F64) : Bool := (f.val / 2 ^ 52) % 2 ^ 11 == 2047 && f.val % 2 ^ 52 != 0

/-- The numeric order of a (non-NaN) float as a signed magnitude integer: IEEE
comparison of non-NaN floats agrees with this integer order (with `-0.0` and
`+0.0` both mapping to `0`). -/
def F64.toOrd (f : F64) : Int :=
  if f.val < 2 ^ 63 then (f.val : Int) else -(((f.val - 2 ^ 63 : Nat)) : Int)

/-- The order-preserving bit transform: flip the sign bit of non-negative
floats, complement all bits of negative ones. -/
def F64.fbits (f : F64) : Nat :=
  if f.val < 2 ^ 63 then f.val + 2 ^ 63 else 2 ^ 64 - 1 - f.val

/-- Big-endian `k`-byte fixed-width encoding of `n` (zero-padded). -/
def bePad (k n : Nat) : List Nat := List.replicate (k - (beBytes n).length) 0 ++ beBytes n

/-- Modelled from the spec: `util/encoding.EncodeNumericFloat` body — the
order-preserving numeric transform of a float, distinct from raw bit-pattern
storage: the transformed bits are emitted as 8 fixed big-endian bytes. -/
def EncodeNumericFloatFrag (f : F64) : List Nat := bePad 8 f.fbits

/-- Modelled from the spec: `util/encoding.EncodeNumericFloat` appends the
order-preserving encoding of `f` to `b`. -/
def EncodeNumericFloat (b : List Nat) (f : F64) : List Nat := b ++ EncodeNumericFloatFrag f

/-- Truncate a natural number to a 64-bit pattern. -/
def mkF64 (n : Nat) : F64 := ⟨n % 2 ^ 64, Nat.mod_lt _ (by norm_num)⟩

/-- Modelled from the spec: `util/encoding.DecodeNumericFloat`. -/
def DecodeNumericFloat (bs : List Nat) : Except String (List Nat × F64) :=
  if bs.length < 8 then .error decodeErrMsg
  else
    let v := beVal (bs.take 8)
    let u := if 2 ^ 63 ≤ v then v - 2 ^ 63 else 2 ^ 64 - 1 - v
    .ok (bs.drop 8, mkF64 u)

theorem F64.fbits_lt (f : F64) : f.fbits < 2 ^ 64 := by
  have := f.property
  unfold F64.fbits
  split <;> omega

theorem bePad_length (k n : Nat) (h : n < 256 ^ k) : (bePad k n).length = k := by
  have hlen : (beBytes n).length ≤ k := (beBytes_len_le_iff n k).mpr h
  simp only [bePad, List.length_append, List.length_replicate]
  omega

theorem bePad_digits (k n : Nat) : ∀ b ∈ bePad k n, b < 256 := by
  intro b hb
  rcases List.mem_append.mp hb with h | h
  · have := List.eq_of_mem_replicate h
    omega
  · exact beBytes_digits n b h

theorem beVal_replicate_zero (j : Nat) (bs : List Nat) :
    beVal (List.replicate j 0 ++ bs) = beVal bs := by
  induction j with
  | zero => simp
  | succ j ih => simp [List.replicate_succ, beVal, ih]

theorem beVal_bePad (k n : Nat) : beVal (bePad k n) = n := by
  rw [bePad, beVal_replicate_zero, beVal_beBytes]

theorem take_len_append (a b : List Nat) (n : Nat) (h : a.length = n) :
    (a ++ b).take n = a := by
  subst h; exact List.take_left _ _

theorem drop_len_append (a b : List Nat) (n : Nat) (h : a.length = n) :
    (a ++ b).drop n = b := by
  subst h; exact List.drop_left _ _

theorem DecodeNumericFloat_Encode (f : F64) (rest : List Nat) :
    DecodeNumericFloat (EncodeNumericFloatFrag f ++ rest) = .ok (rest, f) := by
  have hfb : f.fbits < 2 ^ 64 := f.fbits_lt
  have hfb' : f.fbits < 256 ^ 8 := by
    calc f.fbits < 2 ^ 64 := hfb
      _ ≤ 256 ^ 8 := by norm_num
  have hlen : (EncodeNumericFloatFrag f).length = 8 := bePad_length 8 _ hfb'
  have hval : beVal (EncodeNumericFloatFrag f) = f.fbits := by
    rw [EncodeNumericFloatFrag, beVal_bePad]
  simp only [DecodeNumericFloat]
  rw [if_neg (by simp only [List.length_append, hlen]; omega),
    take_len_append _ _ _ hlen, drop_len_append _ _ _ hlen, hval]
  simp only [Except.ok.injEq, Prod.mk.injEq, true_and]
  apply Subtype.ext
  simp only [mkF64]
  show (if 2 ^ 63 ≤ f.fbits then f.fbits - 2 ^ 63 else 2 ^ 64 - 1 - f.fbits) % 2 ^ 64
      = f.val
  have hprop := f.property
  unfold F64.fbits
  by_cases hv : f.val < 2 ^ 63
  · rw [if_pos hv, if_pos (by omega)]
    omega
  · rw [if_neg hv, if_neg (by omega)]
    omega

theorem F64.fbits_mono (f1 f2 : F64) (h : f1.toOrd < f2.toOrd) : f1.fbits < f2.fbits := by
  have h1 := f1.property
  have h2 := f2.property
  unfold F64.toOrd at h
  unfold F64.fbits
  by_cases hv1 : f1.val < 2 ^ 63 <;> by_cases hv2 : f2.val < 2 ^ 63
  all_goals simp only [hv1, hv2, if_true, if_false, ite_true, ite_false] at h ⊢
  all_goals omega

theorem EncodeNumericFloatFrag_mono (f1 f2 : F64) (h : f1.toOrd < f2.toOrd) :
    lexLt (EncodeNumericFloatFrag f1) (EncodeNumericFloatFrag f2) = true := by
  have hfb1 : f1.fbits < 256 ^ 8 := by
    have := f1.fbits_lt
    calc f1.fbits < 2 ^ 64 := this
      _ ≤ 256 ^ 8 := by norm_num
  have hfb2 : f2.fbits < 256 ^ 8 := by
    have := f2.fbits_lt
    calc f2.fbits < 2 ^ 64 := this
      _ ≤ 256 ^ 8 := by norm_num
  have hlen : (EncodeNumericFloatFrag f1).length = (EncodeNumericFloatFrag f2).length := by
    rw [EncodeNumericFloatFrag, EncodeNumericFloatFrag, bePad_length 8 _ hfb1,
      bePad_length 8 _ hfb2]
  rw [lexLt_iff_beVal_lt _ _ hlen (bePad_digits _ _) (bePad_digits _ _)]
  rw [EncodeNumericFloatFrag, EncodeNumericFloatFrag, beVal_bePad, beVal_bePad]
  exact F64.fbits_mono f1 f2 h

/- ===================== table value model ===================== -/

/-- The Go kinds that the table layer dispatches on: `[]byte`, `string`, bool,
the signed-integer family (widened to `int64`), the unsigned family (widened
to `uint64`), the float family (widened to `float64`), and a stand-in for any
other (unsupported) field kind. -/
inductive TableKind where
  | bytes
  | str
  | bool
  | int
  | uint
  | float
  | other
deriving DecidableEq

/-- A Go field value of one of the table layer's kinds. -/
inductive TableValue where
  | bytes (bs : List Nat)
  | str (s : List Nat)
  | bool (b : Bool)
  | int (n : Int)
  | uint (n : Nat)
  | float (f : F64)
  | other (desc : String)
deriving DecidableEq

def tvKind : TableValue → TableKind
  | .bytes _ => .bytes
  | .str _ => .str
  | .bool _ => .bool
  | .int _ => .int
  | .uint _ => .uint
  | .float _ => .float
  | .other _ => .other

/-- Well-formedness of a value as an actual Go machine value: byte strings
hold bytes, `int64`/`uint64` are in range. -/
def tvValid : TableValue → Bool
  | .bytes bs => bs.all (fun b => decide (b < 256))
  | .str s => s.all (fun b => decide (b < 256))
  | .bool _ => true
  | .int n => decide (-(2 ^ 63) ≤ n) && decide (n < 2 ^ 63)
  | .uint n => decide (n < 2 ^ 64)
  | .float _ => true
  | .other _ => false

/-- Strict order of two values of the same kind (the natural Go order used by
the spec's order-preservation property; `false < true` for booleans, bit-exact
signed-magnitude order for non-NaN floats). Values of distinct kinds are
unordered. -/
def tvLt : TableValue → TableValue → Bool
  | .bytes a, .bytes b => lexLt a b
  | .str a, .str b => lexLt a b
  | .bool a, .bool b => !a && b
  | .int a, .int b => decide (a < b)
  | .uint a, .uint b => decide (a < b)
  | .float a, .float b => !a.isNaN && !b.isNaN && decide (a.toOrd < b.toOrd)
  | _, _ => false

def encodeKeyErrMsg : String := "unable to encode key"
def decodeKeyErrMsg : String := "unable to decode key"

/-- Translation of `encodeTableKey` (client/table.go): encodes a single
element of a table key, appending the encoded value to `b`.  The source
dispatches first on the concrete interface (`[]byte`, `string`), then on the
reflect kind; unsupported kinds produce the "unable to encode key" error. -/
def encodeTableKey (b : List Nat) (v : TableValue) : Except String (List Nat) :=
  match v with
  | .bytes t => .ok (EncodeBytes b t)
  | .str t => .ok (EncodeBytes b t)
  | .bool bv => .ok (if bv then EncodeVarint b 1 else EncodeVarint b 0)
  | .int n => .ok (EncodeVarint b n)
  | .uint n => .ok (EncodeUvarint b n)
  | .float f => .ok (EncodeNumericFloat b f)
  | .other _ => .error encodeKeyErrMsg

/-- Translation of `decodeTableKey` (client/table.go): decodes a single
element of a table key from `b` into a destination of kind `k`, returning the
remaining bytes and the decoded value. -/
def decodeTableKey (b : List Nat) (k : TableKind) : Except String (List Nat × TableValue) :=
  match k with
  | .bytes =>
    match DecodeBytes b with
    | .ok (r, t) => .ok (r, .bytes t)
    | .error e => .error e
  | .str =>
    match DecodeBytes b with
    | .ok (r, t) => .ok (r, .str t)
    | .error e => .error e
  | .bool =>
    match DecodeVarint b with
    | .ok (r, i) => .ok (r, .bool (i != 0))
    | .error e => .error e
  | .int =>
    match DecodeVarint b with
    | .ok (r, i) => .ok (r, .int i)
    | .error e => .error e
  | .uint =>
    match DecodeUvarint b with
    | .ok (r, u) => .ok (r, .uint u)
    | .error e => .error e
  | .float =>
    match DecodeNumericFloat b with
    | .ok (r, f) => .ok (r, .float f)
    | .error e => .error e
  | .other => .error decodeKeyErrMsg

/-- The byte fragment `encodeTableKey` appends for a supported value. -/
def tvFrag : TableValue → List Nat
  | .bytes t => ebFrag t
  | .str t => ebFrag t
  | .bool bv => EncodeVarintFrag (if bv then 1 else 0)
  | .int n => EncodeVarintFrag n
  | .uint n => EncodeUvarintFrag n
  | .float f => EncodeNumericFloatFrag f
  | .other _ => []

theorem encodeTableKey_ok (b : List Nat) (v : TableValue) (h : tvKind v ≠ .other) :
    encodeTableKey b v = .ok (b ++ tvFrag v) := by
  cases v with
  | bytes t => rfl
  | str t => rfl
  | bool bv =>
    cases bv <;> rfl
  | int n => rfl
  | uint n => rfl
  | float f => rfl
  | other d => exact absurd rfl h

/-- Decode determinism: decoding a valid value's encoding followed by any
suffix consumes exactly the encoding and recovers the value. -/
theorem decodeTableKey_frag (v : TableValue) (hv : tvValid v = true) (rest : List Nat) :
    decodeTableKey (tvFrag v ++ rest) (tvKind v) = .ok (rest, v) := by
  cases v with
  | bytes t =>
    simp only [tvFrag, tvKind, decodeTableKey, DecodeBytes, ebDecode_ebFrag]
  | str t =>
    simp only [tvFrag, tvKind, decodeTableKey, DecodeBytes, ebDecode_ebFrag]
  | bool bv =>
    cases bv
    · rw [show tvFrag (TableValue.bool false) = EncodeVarintFrag 0 from rfl]
      simp [tvKind, decodeTableKey, DecodeVarint_EncodeVarint 0 (by norm_num) rest]
    · rw [show tvFrag (TableValue.bool true) = EncodeVarintFrag 1 from rfl]
      simp [tvKind, decodeTableKey, DecodeVarint_EncodeVarint 1 (by norm_num) rest]
  | int n =>
    have hlo : -(2 ^ 63) ≤ n := by
      simp only [tvValid, Bool.and_eq_true, decide_eq_true_eq] at hv
      exact hv.1
    simp [tvFrag, tvKind, decodeTableKey, DecodeVarint_EncodeVarint n hlo rest]
  | uint n =>
    simp [tvFrag, tvKind, decodeTableKey, DecodeUvarint_EncodeUvarint n rest]
  | float f =>
    simp [tvFrag, tvKind, decodeTableKey, DecodeNumericFloat_Encode f rest]
  | other d => simp [tvValid] at hv

/-- Order preservation at the fragment level: a strictly smaller valid value
encodes to a lexicographically strictly smaller fragment. -/
theorem tvFrag_mono (v1 v2 : TableValue) (h1 : tvValid v1 = true)
    (h2 : tvValid v2 = true) (hlt : tvLt v1 v2 = true) :
    lexLt (tvFrag v1) (tvFrag v2) = true := by
  cases v1 <;> cases v2 <;> simp only [tvLt] at hlt <;> try exact Bool.noConfusion hlt
  case bytes.bytes a b => exact ebFrag_mono a b hlt
  case str.str a b => exact ebFrag_mono a b hlt
  case bool.bool a b =>
    have ha : a = false := by
      cases a <;> simp_all
    have hb : b = true := by
      cases b <;> simp_all
    subst ha; subst hb
    exact EncodeVarintFrag_mono 0 1 (by norm_num) (by norm_num)
  case int.int a b =>
    simp only [tvValid, Bool.and_eq_true, decide_eq_true_eq] at h1
    exact EncodeVarintFrag_mono a b h1.1 (by simpa using hlt)
  case uint.uint a b =>
    exact EncodeUvarintFrag_mono a b (by simpa using hlt)
  case float.float a b =>
    simp only [Bool.and_eq_true, decide_eq_true_eq] at hlt
    exact EncodeNumericFloatFrag_mono a b (by tauto)

/- ===================== generic value (proto.Value) and marshaling ============ -/

/-- The generic tagged value (`proto.Value`): at most one of the integer and
byte-sequence variants is populated; total absence (a nil `*proto.Value`) is
represented by `Option ProtoValue` at use sites. -/
structure ProtoValue where
  integer : Option Int
  bytes : Option (List Nat)
deriving DecidableEq

/-- `proto.Value.GetInteger`: the integer variant, defaulting to 0. -/
def ProtoValue.getInteger (v : ProtoValue) : Int := v.integer.getD 0

/-- Go conversion `int64(u)` of a `uint64` bit pattern. -/
def toInt64 (n : Nat) : Int := if n < 2 ^ 63 then (n : Int) else (n : Int) - 2 ^ 64

/-- Go conversion `uint64(i)` of an `int64`. -/
def toUInt64 (i : Int) : Nat := (i % 2 ^ 64).toNat

def marshalValErrMsg : String := "unable to marshal value"
def unmarshalIntErrMsg : String := "unable to unmarshal integer value"
def unmarshalBytsErrMsg : String := "unable to unmarshal byts value"
def unmarshalValErrMsg : String := "unable to unmarshal value"

/-- Translation of `marshalTableValue` (client/table.go): build a
`proto.Value` from a field value.  The source's `gogoproto.Message` and
`encoding.BinaryMarshaler` interface cases concern kinds outside the modelled
field kinds and are not represented.  Floats marshal as the IEEE-754 bit
pattern reinterpreted as `int64` (`math.Float64bits`), NOT the
order-preserving key transform. -/
def marshalTableValue (v : TableValue) : Except String ProtoValue :=
  match v with
  | .str s => .ok ⟨none, some s⟩
  | .bytes bs => .ok ⟨none, some bs⟩
  | .bool b => .ok ⟨some (if b then 1 else 0), none⟩
  | .int n => .ok ⟨some n, none⟩
  | .uint n => .ok ⟨some (toInt64 n), none⟩
  | .float f => .ok ⟨some (toInt64 f.val), none⟩
  | .other _ => .error marshalValErrMsg

/-- `reflect.Zero` for each modelled kind (for `other`, an opaque zero). -/
def zeroValue : TableKind → TableValue
  | .bytes => .bytes []
  | .str => .str []
  | .bool => .bool false
  | .int => .int 0
  | .uint => .uint 0
  | .float => .float (mkF64 0)
  | .other => .other ""

/-- Translation of `unmarshalTableValue` (client/table.go): write the contents
of a (possibly nil) `proto.Value` into a destination of kind `k`.  A nil
source sets the destination to the zero value of its type, before any kind
dispatch.  Floats are rebuilt with `math.Float64frombits(uint64(integer))`. -/
def unmarshalTableValue (src : Option ProtoValue) (k : TableKind) :
    Except String TableValue :=
  match src with
  | none => .ok (zeroValue k)
  | some s =>
    match k with
    | .str =>
      if s.integer.isSome then .error unmarshalIntErrMsg
      else
        match s.bytes with
        | some bs => .ok (.str bs)
        | none => .ok (.str [])
    | .bytes =>
      if s.integer.isSome then .error unmarshalIntErrMsg
      else
        match s.bytes with
        | some bs => .ok (.bytes bs)
        | none => .ok (.bytes [])
    | .bool =>
      if s.bytes.isSome then .error unmarshalBytsErrMsg
      else .ok (.bool (s.getInteger != 0))
    | .int =>
      if s.bytes.isSome then .error unmarshalBytsErrMsg
      else .ok (.int s.getInteger)
    | .uint =>
      if s.bytes.isSome then .error unmarshalBytsErrMsg
      else .ok (.uint (toUInt64 s.getInteger))
    | .float =>
      if s.bytes.isSome then .error unmarshalBytsErrMsg
      else .ok (.float (mkF64 (toUInt64 s.getInteger)))
    | .other => .error unmarshalValErrMsg

theorem toUInt64_toInt64 (n : Nat) (h : n < 2 ^ 64) : toUInt64 (toInt64 n) = n := by
  unfold toInt64 toUInt64
  by_cases hn : n < 2 ^ 63
  · rw [if_pos hn]
    omega
  · rw [if_neg hn]
    omega

/- ===================== model and key builder ===================== -/

/-- A record value of a bound type: the field values, positionally parallel to
the model's field list (`reflect.Value` field access by index). -/
abbrev Rec := List TableValue

/-- The field map of a bound type (`fieldMap`): column name to the field's
position and kind.  Go's map has unique keys; well-formedness below. -/
abbrev FieldMap := List (List Nat × TableKind)

def lookupFieldAux : FieldMap → List Nat → Nat → Option (Nat × TableKind)
  | [], _, _ => none
  | (n, k) :: fs, col, i => if n = col then some (i, k) else lookupFieldAux fs col (i + 1)

/-- Look up a column in the field map, yielding the field's record position
and kind (`m.fields[col]`). -/
def lookupField (fields : FieldMap) (col : List Nat) : Option (Nat × TableKind) :=
  lookupFieldAux fields col 0

def unableToFindFieldMsg : String := "unable to find field"
def unexpectedTableNameMsg : String := "unexpected table name"

/-- Translation of the `model` struct (client/table.go): table name, field
map, primary-key column list and remaining columns. -/
structure Model where
  name : List Nat
  fields : FieldMap
  primaryKey : List (List Nat)
  otherColumns : List (List Nat)
deriving DecidableEq

/-- Placeholder used for out-of-range field reads (never hit on well-formed
records). -/
def defaultTV : TableValue := .other "invalid"

/-- Read field `i` of a record (`v.FieldByIndex`). -/
def recGet : Rec → Nat → TableValue
  | [], _ => defaultTV
  | v :: _, 0 => v
  | _ :: vs, i + 1 => recGet vs i

/-- Overwrite field `i` of a record in place (`reflect.Value.Set` on a
field). -/
def recSet : Rec → Nat → TableValue → Rec
  | [], _, _ => []
  | _ :: vs, 0, v => v :: vs
  | w :: vs, i + 1, v => w :: recSet vs i v

theorem recSet_length (r : Rec) (i : Nat) (v : TableValue) :
    (recSet r i v).length = r.length := by
  induction r generalizing i with
  | nil => rfl
  | cons w vs ih =>
    cases i with
    | zero => rfl
    | succ i => simp [recSet, ih]

theorem recGet_recSet_self (r : Rec) (i : Nat) (v : TableValue) (h : i < r.length) :
    recGet (recSet r i v) i = v := by
  induction r generalizing i with
  | nil => simp at h
  | cons w vs ih =>
    cases i with
    | zero => rfl
    | succ i => exact ih i (by simpa using h)

theorem recGet_recSet_ne (r : Rec) (i j : Nat) (v : TableValue) (h : i ≠ j) :
    recGet (recSet r i v) j = recGet r j := by
  induction r generalizing i j with
  | nil => rfl
  | cons w vs ih =>
    cases i with
    | zero =>
      cases j with
      | zero => exact absurd rfl h
      | succ j => rfl
    | succ i =>
      cases j with
      | zero => rfl
      | succ j => exact ih i j (by omega)

theorem tvValid_kind_ne_other (v : TableValue) (h : tvValid v = true) :
    tvKind v ≠ .other := by
  cases v <;> simp [tvValid, tvKind] at h ⊢

/-- The per-column loop of `model.encodePrimaryKey`. -/
def encodePKFields (m : Model) (cols : List (List Nat)) (key : List Nat) (v : Rec) :
    Except String (List Nat) :=
  match cols with
  | [] => .ok key
  | col :: rest =>
    match lookupField m.fields col with
    | none => .error unableToFindFieldMsg
    | some (i, _) =>
      match encodeTableKey key (recGet v i) with
      | .ok key2 => encodePKFields m rest key2 v
      | .error e => .error e

/-- Translation of `model.encodePrimaryKey` (client/table.go): the table name
is encoded first, then each primary-key column in bound order. -/
def Model.encodePrimaryKey (m : Model) (v : Rec) : Except String (List Nat) :=
  encodePKFields m m.primaryKey (EncodeBytes [] m.name) v

/-- The per-column loop of `model.decodePrimaryKey`. -/
def decodePKFields (m : Model) (cols : List (List Nat)) (key : List Nat) (v : Rec) :
    Except String (List Nat × Rec) :=
  match cols with
  | [] => .ok (key, v)
  | col :: rest =>
    match lookupField m.fields col with
    | none => .error unableToFindFieldMsg
    | some (i, k) =>
      match decodeTableKey key k with
      | .ok (key2, val) => decodePKFields m rest key2 (recSet v i val)
      | .error e => .error e

/-- Translation of `model.decodePrimaryKey` (client/table.go): the table name
is decoded first and checked against the model's name ("unexpected table
name" on mismatch, before any field is decoded); then the primary-key columns
are decoded in bound order and the undecoded remainder is returned.  (The Go
`DecodeBytes` panics on malformed input; the modelled decoder returns an
error instead, which likewise stops before any field write.) -/
def Model.decodePrimaryKey (m : Model) (key : List Nat) (v : Rec) :
    Except String (List Nat × Rec) :=
  match DecodeBytes key with
  | .ok (key2, name) =>
    if name ≠ m.name then .error unexpectedTableNameMsg
    else decodePKFields m m.primaryKey key2 v
  | .error e => .error e

/-- Functional content of `model.encodeColumnKey` (client/table.go): a fresh
byte string holding the primary key followed by the raw column name (the
heap/aliasing form is modelled separately below). -/
def Model.encodeColumnKey (_ : Model) (primaryKey column : List Nat) : List Nat :=
  ([] ++ primaryKey) ++ column

/-- The record produced by decoding `src`'s primary key into `r`: each
primary-key column's field is overwritten by `src`'s value, in bound order. -/
def writePKFields (m : Model) (cols : List (List Nat)) (src r : Rec) : Rec :=
  match cols with
  | [] => r
  | col :: rest =>
    match lookupField m.fields col with
    | none => r
    | some (i, _) => writePKFields m rest src (recSet r i (recGet src i))

/-- The key fragment contributed by `src`'s primary-key columns. -/
def pkFrags (m : Model) (cols : List (List Nat)) (src : Rec) : List Nat :=
  match cols with
  | [] => []
  | col :: rest =>
    match lookupField m.fields col with
    | none => []
    | some (i, _) => tvFrag (recGet src i) ++ pkFrags m rest src

/-- `src` supplies a well-formed machine value of the declared kind for every
primary-key column of `m`. -/
def pkValidB (m : Model) (src : Rec) : Bool :=
  m.primaryKey.all (fun col =>
    match lookupField m.fields col with
    | none => false
    | some (i, k) =>
      tvKind (recGet src i) == k && tvValid (recGet src i))

theorem encodePKFields_ok (m : Model) (src : Rec) :
    ∀ cols, (cols.all (fun col =>
        match lookupField m.fields col with
        | none => false
        | some (i, k) =>
          tvKind (recGet src i) == k && tvValid (recGet src i)) = true) →
    ∀ key, encodePKFields m cols key src = .ok (key ++ pkFrags m cols src) := by
  intro cols
  induction cols with
  | nil => intro _ key; simp [encodePKFields, pkFrags]
  | cons col rest ih =>
    intro hall key
    simp only [List.all_cons, Bool.and_eq_true] at hall
    obtain ⟨hcol, hrest⟩ := hall
    cases hlk : lookupField m.fields col with
    | none => rw [hlk] at hcol; exact Bool.noConfusion hcol
    | some ik =>
      obtain ⟨i, k⟩ := ik
      rw [hlk] at hcol
      simp only [Bool.and_eq_true, beq_iff_eq] at hcol
      have hok := encodeTableKey_ok key (recGet src i) (tvValid_kind_ne_other _ hcol.2)
      simp only [encodePKFields, pkFrags, hlk, hok]
      rw [ih (by simpa using hrest) (key ++ tvFrag (recGet src i))]
      simp

theorem decodePKFields_frags (m : Model) (src : Rec) :
    ∀ cols, (cols.all (fun col =>
        match lookupField m.fields col with
        | none => false
        | some (i, k) =>
          tvKind (recGet src i) == k && tvValid (recGet src i)) = true) →
    ∀ rest r, decodePKFields m cols (pkFrags m cols src ++ rest) r
      = .ok (rest, writePKFields m cols src r) := by
  intro cols
  induction cols with
  | nil => intro _ rest r; simp [decodePKFields, pkFrags, writePKFields]
  | cons col rest0 ih =>
    intro hall rest r
    simp only [List.all_cons, Bool.and_eq_true] at hall
    obtain ⟨hcol, hrest⟩ := hall
    cases hlk : lookupField m.fields col with
    | none => rw [hlk] at hcol; exact Bool.noConfusion hcol
    | some ik =>
      obtain ⟨i, k⟩ := ik
      rw [hlk] at hcol
      simp only [Bool.and_eq_true, beq_iff_eq] at hcol
      have hdec := decodeTableKey_frag (recGet src i) hcol.2
        (pkFrags m rest0 src ++ rest)
      rw [hcol.1] at hdec
      simp only [decodePKFields, pkFrags, writePKFields, hlk, List.append_assoc, hdec]
      exact ih (by simpa using hrest) rest (recSet r i (recGet src i))

theorem Model.encodePrimaryKey_eq (m : Model) (src : Rec) (hv : pkValidB m src = true) :
    m.encodePrimaryKey src = .ok (ebFrag m.name ++ pkFrags m m.primaryKey src) := by
  unfold Model.encodePrimaryKey
  rw [encodePKFields_ok m src m.primaryKey hv (EncodeBytes [] m.name)]
  simp [EncodeBytes]

/-- Decode determinism for full primary keys: decoding an encoded primary key
followed by any suffix into any record succeeds, consumes exactly the encoded
primary key, and overwrites exactly the primary-key fields with the source
record's values. -/
theorem Model.decodePrimaryKey_encode (m : Model) (src : Rec) (pk : List Nat)
    (hv : pkValidB m src = true) (he : m.encodePrimaryKey src = .ok pk)
    (rest : List Nat) (r : Rec) :
    m.decodePrimaryKey (pk ++ rest) r = .ok (rest, writePKFields m m.primaryKey src r) := by
  rw [Model.encodePrimaryKey_eq m src hv] at he
  injection he with he
  subst he
  unfold Model.decodePrimaryKey
  rw [List.append_assoc]
  rw [show DecodeBytes (ebFrag m.name ++ (pkFrags m m.primaryKey src ++ rest))
      = .ok (pkFrags m m.primaryKey src ++ rest, m.name) from ebDecode_ebFrag _ _]
  simp only [ne_eq, not_true_eq_false, if_false, ite_false]
  exact decodePKFields_frags m src m.primaryKey hv rest r

theorem isPrefixOf_iff_exists (a b : List Nat) :
    a.isPrefixOf b = true ↔ ∃ t, a ++ t = b := by
  induction a generalizing b with
  | nil => simp [List.isPrefixOf]
  | cons x xs ih =>
    cases b with
    | nil => simp [List.isPrefixOf]
    | cons y ys =>
      simp only [List.isPrefixOf, List.cons_append, Bool.and_eq_true, beq_iff_eq, ih]
      constructor
      · rintro ⟨hxy, t, ht⟩
        exact ⟨t, by rw [hxy, ht]⟩
      · rintro ⟨t, ht⟩
        injection ht with h1 h2
        exact ⟨h1, t, h2⟩

theorem isPrefixOf_append_self (a b : List Nat) : a.isPrefixOf (a ++ b) = true :=
  (isPrefixOf_iff_exists a (a ++ b)).mpr ⟨b, rfl⟩

/-- Prefix safety: a full encoded primary key of one record is never a prefix
of a different record's column key (both over the same model). -/
theorem encodePK_not_prefix (m : Model) (src1 src2 : Rec) (pk1 pk2 : List Nat)
    (hv1 : pkValidB m src1 = true) (hv2 : pkValidB m src2 = true)
    (he1 : m.encodePrimaryKey src1 = .ok pk1) (he2 : m.encodePrimaryKey src2 = .ok pk2)
    (hne : pk1 ≠ pk2) (c : List Nat) :
    pk1.isPrefixOf (pk2 ++ c) = false := by
  by_contra hcon
  rw [Bool.not_eq_false, isPrefixOf_iff_exists] at hcon
  obtain ⟨t, ht⟩ := hcon
  have hd1 := Model.decodePrimaryKey_encode m src1 pk1 hv1 he1 t []
  have hd2 := Model.decodePrimaryKey_encode m src2 pk2 hv2 he2 c []
  rw [ht] at hd1
  rw [hd2] at hd1
  injection hd1 with hd1
  injection hd1 with hd1 hd2'
  subst hd1
  exact hne (List.append_cancel_right ht)

/-- `primaryKey = row.Key[:len(row.Key)-len(col)]` recovers the primary key of
a column key. -/
theorem take_columnKey (pk c : List Nat) :
    (pk ++ c).take ((pk ++ c).length - c.length) = pk := by
  have : (pk ++ c).length - c.length = pk.length := by simp
  rw [this, List.take_left]

/- ===================== scan reconstructor ===================== -/

/-- One row of a scan reply: a column key and its value (`proto.KeyValue`). -/
structure ScanRow where
  key : List Nat
  value : ProtoValue
deriving DecidableEq

/-- `reflect.New(modelT).Elem()` / `reflect.Zero`: the zero record of the
bound type — every field at its zero value. -/
def zeroRec (m : Model) : Rec := m.fields.map (fun f => zeroValue f.2)

/-- Boolean list membership by structural equality. -/
def colElem (col : List Nat) : List (List Nat) → Bool
  | [] => false
  | c :: cs => decide (c = col) || colElem col cs

theorem colElem_iff (col : List Nat) (l : List (List Nat)) :
    colElem col l = true ↔ col ∈ l := by
  induction l with
  | nil => simp [colElem]
  | cons c cs ih =>
    simp only [colElem, Bool.or_eq_true, decide_eq_true_eq, List.mem_cons, ih]
    constructor
    · rintro (h | h)
      · exact Or.inl h.symm
      · exact Or.inr h
    · rintro (h | h)
      · exact Or.inl h.symm
      · exact Or.inr h

/-- The column filter test of the scan loop: `scanCols != nil &&
!scanCols[colStr]`. -/
def scanColsSkip (sc : Option (List (List Nat))) (col : List Nat) : Bool :=
  match sc with
  | none => false
  | some cs => !colElem col cs

/- Translation of the row loop in `Batch.ScanStruct`'s post-processing
closure (client/table.go): state is the current primary key (absent
initially), the record under construction and the accumulated destination
slice.  Per row: (boundary) if a current primary key exists and is not a
byte prefix of the row key, flush the current record, allocate a fresh zero
record and decode the *previous* primary key into it; then decode the row's
primary key into the record, remember it, and — unless the column filter
skips the column-name suffix — look the suffix up in the field map and
unmarshal the row's value into that field.  After the last row the current
record is flushed.  (The Go code appends records by value — or appends a
fresh pointer in the `ptrResults` case — so each flushed element is
independent of later mutation; Lean's value semantics models both paths.) -/
/-- The post-boundary part of one loop iteration, abstracted over the loop's
continuation so that `scanLoop` below stays structurally recursive: decode the
row's primary key into the record, compute the column suffix and the new
current primary key, and (unless filtered) unmarshal into the named field. -/
def scanStep (m : Model) (scanCols : Option (List (List Nat))) (row : ScanRow)
    (result : Rec) (sliceV : List Rec)
    (cont : Option (List Nat) → Rec → List Rec → Except String (List Rec)) :
    Except String (List Rec) :=
  match m.decodePrimaryKey row.key result with
  | .error e => .error e
  | .ok (col, result) =>
    let pk2 := row.key.take (row.key.length - col.length)
    if scanColsSkip scanCols col then
      cont (some pk2) result sliceV
    else
      match lookupField m.fields col with
      | none => .error unableToFindFieldMsg
      | some (i, k) =>
        match unmarshalTableValue (some row.value) k with
        | .ok val => cont (some pk2) (recSet result i val) sliceV
        | .error e => .error e

/-- The scan reply row loop; see the comment above. -/
def scanLoop (m : Model) (scanCols : Option (List (List Nat))) :
    List ScanRow → Option (List Nat) → Rec → List Rec → Except String (List Rec)
  | [], _, result, sliceV => .ok (sliceV ++ [result])
  | row :: rows, primaryKey, result, sliceV =>
    match
      (match primaryKey with
       | some pk =>
         if pk.isPrefixOf row.key then Except.ok (result, sliceV)
         else
           match m.decodePrimaryKey pk (zeroRec m) with
           | .ok (_, fresh) => Except.ok (fresh, sliceV ++ [result])
           | .error e => Except.error e
       | none => Except.ok (result, sliceV)) with
    | .error e => .error e
    | .ok (result, sliceV) =>
      scanStep m scanCols row result sliceV (scanLoop m scanCols rows)

/-- Translation of the whole post-processing step of `Batch.ScanStruct`: an
empty reply returns immediately (the destination slice is untouched, no
trailing flush); otherwise the column filter set is built from the explicit
column list (absent when the list is empty) and the row loop runs starting
from no current primary key, a zero record, and the destination slice's
current contents. -/
def scanPost (m : Model) (columns : List (List Nat)) (rows : List ScanRow)
    (dest : List Rec) : Except String (List Rec) :=
  if rows.isEmpty then .ok dest
  else
    scanLoop m (if columns.isEmpty then none else some columns) rows none (zeroRec m) dest

def exceptOk {α : Type} : Except String α → Bool
  | .ok _ => true
  | .error _ => false

/-- A scan reply group: the source record whose primary key addresses the
group, and the rows' column-name/value pairs. -/
structure ScanGroup where
  src : Rec
  cols : List (List Nat × ProtoValue)

/-- The encoded primary key of a record (the value `encodePrimaryKey`
returns when it succeeds). -/
def pkOfRec (m : Model) (src : Rec) : List Nat :=
  ebFrag m.name ++ pkFrags m m.primaryKey src

def groupRows (m : Model) (g : ScanGroup) : List ScanRow :=
  g.cols.map (fun cv => ⟨pkOfRec m g.src ++ cv.1, cv.2⟩)

def allGroupRows (m : Model) (gs : List ScanGroup) : List ScanRow :=
  (gs.map (groupRows m)).flatten

/-- A reply column is acceptable to the scan loop: either the filter skips
it, or it names a non-primary-key field whose value unmarshals. -/
def colOK (m : Model) (sc : Option (List (List Nat))) (cv : List Nat × ProtoValue) : Bool :=
  scanColsSkip sc cv.1 ||
    (match lookupField m.fields cv.1 with
     | none => false
     | some (_, k) =>
       !colElem cv.1 m.primaryKey && exceptOk (unmarshalTableValue (some cv.2) k))

/-- What the scan loop's common path does to the record for one in-group row:
re-decode the primary key (overwriting the primary-key fields from `src`),
then — unless filtered — assign the unmarshalled value into the named
field. -/
def rowStep (m : Model) (sc : Option (List (List Nat))) (src : Rec)
    (cv : List Nat × ProtoValue) (r : Rec) : Rec :=
  let r1 := writePKFields m m.primaryKey src r
  if scanColsSkip sc cv.1 then r1
  else
    match lookupField m.fields cv.1 with
    | none => r1
    | some (i, k) =>
      match unmarshalTableValue (some cv.2) k with
      | .ok val => recSet r1 i val
      | .error _ => r1

/-- Iterated `rowStep` over a group's columns. -/
def procCols (m : Model) (sc : Option (List (List Nat))) (src : Rec) :
    List (List Nat × ProtoValue) → Rec → Rec
  | [], r => r
  | cv :: rest, r => procCols m sc src rest (rowStep m sc src cv r)

/-- The record the scan loop reconstructs for one group (entering from any
record whose non-primary-key fields are zero). -/
def groupRec (m : Model) (sc : Option (List (List Nat))) (g : ScanGroup) : Rec :=
  procCols m sc g.src g.cols (zeroRec m)

/-- Strictly ascending chain of byte strings. -/
def ascChain : List (List Nat) → Bool
  | [] => true
  | [_] => true
  | a :: b :: rest => lexLt a b && ascChain (b :: rest)

/-- Per-group obligations: a valid primary key and acceptable columns. -/
def groupOK (m : Model) (sc : Option (List (List Nat))) (g : ScanGroup) : Bool :=
  pkValidB m g.src && !g.cols.isEmpty && g.cols.all (colOK m sc)

/- ============ record / field-map bookkeeping lemmas ============ -/

theorem lookupFieldAux_ge : ∀ (fs : FieldMap) (col : List Nat) (b i : Nat) (k : TableKind),
    lookupFieldAux fs col b = some (i, k) → b ≤ i := by
  intro fs
  induction fs with
  | nil => intro col b i k h; exact absurd h (by simp [lookupFieldAux])
  | cons f rest ih =>
    intro col b i k h
    obtain ⟨n, k0⟩ := f
    simp only [lookupFieldAux] at h
    by_cases hn : n = col
    · rw [if_pos hn] at h
      injection h with h
      injection h with h1 h2
      omega
    · rw [if_neg hn] at h
      have := ih col (b + 1) i k h
      omega

theorem lookupFieldAux_lt : ∀ (fs : FieldMap) (col : List Nat) (b i : Nat) (k : TableKind),
    lookupFieldAux fs col b = some (i, k) → i < b + fs.length := by
  intro fs
  induction fs with
  | nil => intro col b i k h; exact absurd h (by simp [lookupFieldAux])
  | cons f rest ih =>
    intro col b i k h
    obtain ⟨n, k0⟩ := f
    simp only [lookupFieldAux] at h
    by_cases hn : n = col
    · rw [if_pos hn] at h
      injection h with h
      injection h with h1 h2
      simp only [List.length_cons]
      omega
    · rw [if_neg hn] at h
      have := ih col (b + 1) i k h
      simp only [List.length_cons]
      omega

theorem lookupField_lt (fields : FieldMap) (col : List Nat) (i : Nat) (k : TableKind)
    (h : lookupField fields col = some (i, k)) : i < fields.length := by
  have := lookupFieldAux_lt fields col 0 i k h
  omega

theorem lookupFieldAux_inj : ∀ (fs : FieldMap) (c1 c2 : List Nat) (b i : Nat)
    (k1 k2 : TableKind), lookupFieldAux fs c1 b = some (i, k1) →
    lookupFieldAux fs c2 b = some (i, k2) → c1 = c2 := by
  intro fs
  induction fs with
  | nil => intro c1 c2 b i k1 k2 h1; exact absurd h1 (by simp [lookupFieldAux])
  | cons f rest ih =>
    intro c1 c2 b i k1 k2 h1 h2
    obtain ⟨n, k0⟩ := f
    simp only [lookupFieldAux] at h1 h2
    by_cases hn1 : n = c1
    · rw [if_pos hn1] at h1
      injection h1 with h1
      injection h1 with h1i h1k
      by_cases hn2 : n = c2
      · rw [← hn1, hn2]
      · rw [if_neg hn2] at h2
        have := lookupFieldAux_ge rest c2 (b + 1) i k2 h2
        omega
    · rw [if_neg hn1] at h1
      by_cases hn2 : n = c2
      · rw [if_pos hn2] at h2
        injection h2 with h2
        injection h2 with h2i h2k
        have := lookupFieldAux_ge rest c1 (b + 1) i k1 h1
        omega
      · rw [if_neg hn2] at h2
        exact ih c1 c2 (b + 1) i k1 k2 h1 h2

theorem lookupField_inj (fields : FieldMap) (c1 c2 : List Nat) (i : Nat)
    (k1 k2 : TableKind) (h1 : lookupField fields c1 = some (i, k1))
    (h2 : lookupField fields c2 = some (i, k2)) : c1 = c2 :=
  lookupFieldAux_inj fields c1 c2 0 i k1 k2 h1 h2

/-- Records with the same length and field values are equal. -/
theorem recExt : ∀ (r1 r2 : Rec), r1.length = r2.length →
    (∀ j, recGet r1 j = recGet r2 j) → r1 = r2 := by
  intro r1
  induction r1 with
  | nil =>
    intro r2 hlen _
    cases r2 with
    | nil => rfl
    | cons w ws => simp at hlen
  | cons v vs ih =>
    intro r2 hlen hget
    cases r2 with
    | nil => simp at hlen
    | cons w ws =>
      have h0 := hget 0
      simp only [recGet] at h0
      subst h0
      congr 1
      exact ih ws (by simpa using hlen) (fun j => hget (j + 1))

/-- Field index `j` is written by decoding the given primary-key columns. -/
def pkTargets (m : Model) (cols : List (List Nat)) (j : Nat) : Prop :=
  ∃ col ∈ cols, ∃ k, lookupField m.fields col = some (j, k)

theorem writePKFields_length (m : Model) (src : Rec) :
    ∀ cols r, (writePKFields m cols src r).length = r.length := by
  intro cols
  induction cols with
  | nil => intro r; rfl
  | cons col rest ih =>
    intro r
    simp only [writePKFields]
    cases hlk : lookupField m.fields col with
    | none => rfl
    | some ik =>
      obtain ⟨i, k⟩ := ik
      rw [ih, recSet_length]

theorem recGet_writePK_of_not (m : Model) (src : Rec) :
    ∀ cols r j, ¬ pkTargets m cols j → recGet (writePKFields m cols src r) j = recGet r j := by
  intro cols
  induction cols with
  | nil => intro r j _; rfl
  | cons col rest ih =>
    intro r j hnt
    simp only [writePKFields]
    cases hlk : lookupField m.fields col with
    | none => rfl
    | some ik =>
      obtain ⟨i, k⟩ := ik
      have hij : i ≠ j := by
        intro he
        subst he
        exact hnt ⟨col, List.mem_cons_self _ _, k, hlk⟩
      rw [ih _ j (fun ⟨c, hc, k', hk'⟩ => hnt ⟨c, List.mem_cons_of_mem _ hc, k', hk'⟩)]
      exact recGet_recSet_ne r i j _ hij

theorem recGet_writePK_of_targets (m : Model) (src : Rec) :
    ∀ cols r j, pkTargets m cols j → j < r.length →
    (∀ c ∈ cols, (lookupField m.fields c).isSome) →
    recGet (writePKFields m cols src r) j = recGet src j := by
  intro cols
  induction cols with
  | nil =>
    intro r j ht _ _
    obtain ⟨c, hc, _⟩ := ht
    simp at hc
  | cons col rest ih =>
    intro r j ht hj hall
    simp only [writePKFields]
    cases hlk : lookupField m.fields col with
    | none =>
      have := hall col (List.mem_cons_self _ _)
      rw [hlk] at this
      simp at this
    | some ik =>
      obtain ⟨i, k⟩ := ik
      by_cases hij : i = j
      · subst hij
        by_cases hrt : pkTargets m rest i
        · exact ih _ i hrt (by rw [recSet_length]; exact hj)
            (fun c hc => hall c (List.mem_cons_of_mem _ hc))
        · rw [recGet_writePK_of_not m src rest _ i hrt]
          exact recGet_recSet_self r i _ hj
      · obtain ⟨c, hc, k', hk'⟩ := ht
        rcases List.mem_cons.mp hc with he | hm
        · subst he
          rw [hk'] at hlk
          injection hlk with hlk
          injection hlk with h1 h2
          exact absurd h1.symm hij
        · exact ih _ j ⟨c, hm, k', hk'⟩ (by rw [recSet_length]; exact hj)
            (fun c hc => hall c (List.mem_cons_of_mem _ hc))

/-- The primary-key field values of a record, column by column. -/
def pkProjCols (m : Model) (cols : List (List Nat)) (r : Rec) : List TableValue :=
  cols.map (fun col =>
    match lookupField m.fields col with
    | none => defaultTV
    | some (i, _) => recGet r i)

/-- The primary-key field values of a record (the record's identity). -/
def pkProj (m : Model) (r : Rec) : List TableValue := pkProjCols m m.primaryKey r

theorem pkProjCols_congr (m : Model) (cols : List (List Nat)) (r1 r2 : Rec)
    (h : ∀ j, pkTargets m cols j → recGet r1 j = recGet r2 j) :
    pkProjCols m cols r1 = pkProjCols m cols r2 := by
  induction cols with
  | nil => rfl
  | cons c cs ih =>
    simp only [pkProjCols, List.map_cons, List.cons.injEq]
    constructor
    · cases hlk : lookupField m.fields c with
      | none => rfl
      | some ik =>
        obtain ⟨i, k⟩ := ik
        exact h i ⟨c, List.mem_cons_self _ _, k, hlk⟩
    · exact ih (fun j ⟨c', hc', k', hk'⟩ => h j ⟨c', List.mem_cons_of_mem _ hc', k', hk'⟩)

theorem pkValidB_isSome (m : Model) (src : Rec) (hv : pkValidB m src = true) :
    ∀ c ∈ m.primaryKey, (lookupField m.fields c).isSome := by
  intro c hc
  have hall := List.all_eq_true.mp hv c hc
  cases h : lookupField m.fields c with
  | none => rw [h] at hall; exact Bool.noConfusion hall
  | some ik => simp

theorem pkProjCols_writePK (m : Model) (src : Rec) (hv : pkValidB m src = true)
    (cols : List (List Nat)) (hsub : ∀ c ∈ cols, c ∈ m.primaryKey) (r : Rec)
    (hr : m.fields.length ≤ r.length) :
    pkProjCols m cols (writePKFields m m.primaryKey src r) = pkProjCols m cols src := by
  induction cols with
  | nil => rfl
  | cons c cs ih =>
    simp only [pkProjCols, List.map_cons, List.cons.injEq]
    constructor
    · cases hlk : lookupField m.fields c with
      | none => rfl
      | some ik =>
        obtain ⟨i, k⟩ := ik
        apply recGet_writePK_of_targets m src m.primaryKey r i
          ⟨c, hsub c (List.mem_cons_self _ _), k, hlk⟩
          (Nat.lt_of_lt_of_le (lookupField_lt _ _ _ _ hlk) hr)
          (pkValidB_isSome m src hv)
    · exact ih (fun c' hc' => hsub c' (List.mem_cons_of_mem _ hc'))

theorem pkProj_writePK (m : Model) (src : Rec) (hv : pkValidB m src = true) (r : Rec)
    (hr : m.fields.length ≤ r.length) :
    pkProj m (writePKFields m m.primaryKey src r) = pkProj m src :=
  pkProjCols_writePK m src hv m.primaryKey (fun _ hc => hc) r hr

theorem rowStep_length (m : Model) (sc : Option (List (List Nat))) (src : Rec)
    (cv : List Nat × ProtoValue) (r : Rec) :
    (rowStep m sc src cv r).length = r.length := by
  unfold rowStep
  by_cases hs : scanColsSkip sc cv.1
  · rw [if_pos hs, writePKFields_length]
  · rw [if_neg hs]
    cases hlk : lookupField m.fields cv.1 with
    | none =>
      show (writePKFields m m.primaryKey src r).length = r.length
      rw [writePKFields_length]
    | some ik =>
      obtain ⟨i, k⟩ := ik
      dsimp only
      cases hu : unmarshalTableValue (some cv.2) k with
      | ok val =>
        show (recSet (writePKFields m m.primaryKey src r) i val).length = r.length
        rw [recSet_length, writePKFields_length]
      | error e =>
        show (writePKFields m m.primaryKey src r).length = r.length
        rw [writePKFields_length]

theorem pkProj_rowStep (m : Model) (sc : Option (List (List Nat))) (src : Rec)
    (hv : pkValidB m src = true) (cv : List Nat × ProtoValue)
    (hok : colOK m sc cv = true) (r : Rec) (hr : m.fields.length ≤ r.length) :
    pkProj m (rowStep m sc src cv r) = pkProj m src := by
  have hw := pkProj_writePK m src hv r hr
  unfold rowStep
  by_cases hs : scanColsSkip sc cv.1
  · rw [if_pos hs]; exact hw
  · rw [if_neg hs]
    simp only [colOK, Bool.or_eq_true] at hok
    rcases hok with hok | hok
    · exact absurd hok hs
    · cases hlk : lookupField m.fields cv.1 with
      | none => exact hw
      | some ik =>
        obtain ⟨i, k⟩ := ik
        dsimp only
        rw [hlk] at hok
        simp only [Bool.and_eq_true, Bool.not_eq_true'] at hok
        cases hu : unmarshalTableValue (some cv.2) k with
        | error e => exact hw
        | ok val =>
          show pkProj m (recSet (writePKFields m m.primaryKey src r) i val) = pkProj m src
          rw [← hw]
          apply pkProjCols_congr
          intro j hj
          obtain ⟨c', hc', k', hk'⟩ := hj
          apply recGet_recSet_ne
          intro hij
          subst hij
          have hcc : cv.1 = c' := lookupField_inj m.fields cv.1 c' i k k' hlk hk'
          subst hcc
          have hcel : colElem cv.1 m.primaryKey = true := (colElem_iff _ _).mpr hc'
          rw [hok.1] at hcel
          exact Bool.noConfusion hcel

theorem procCols_length (m : Model) (sc : Option (List (List Nat))) (src : Rec) :
    ∀ cols r, (procCols m sc src cols r).length = r.length := by
  intro cols
  induction cols with
  | nil => intro r; rfl
  | cons cv rest ih =>
    intro r
    simp only [procCols]
    rw [ih, rowStep_length]

theorem pkProj_procCols (m : Model) (sc : Option (List (List Nat))) (src : Rec)
    (hv : pkValidB m src = true) :
    ∀ cols r, cols ≠ [] → cols.all (colOK m sc) = true →
    m.fields.length ≤ r.length →
    pkProj m (procCols m sc src cols r) = pkProj m src := by
  intro cols
  induction cols with
  | nil => intro r h; exact absurd rfl h
  | cons cv rest ih =>
    intro r _ hall hr
    simp only [List.all_cons, Bool.and_eq_true] at hall
    simp only [procCols]
    cases rest with
    | nil =>
      simp only [procCols]
      exact pkProj_rowStep m sc src hv cv hall.1 r hr
    | cons cv2 rest2 =>
      exact ih _ (by simp) (by simpa using hall.2)
        (by rw [rowStep_length]; exact hr)

theorem rowStep_skip (m : Model) (sc : Option (List (List Nat))) (src : Rec)
    (cv : List Nat × ProtoValue) (r : Rec) (hs : scanColsSkip sc cv.1 = true) :
    rowStep m sc src cv r = writePKFields m m.primaryKey src r := by
  unfold rowStep
  rw [if_pos hs]

theorem recGet_procCols_skip_not (m : Model) (sc : Option (List (List Nat))) (src : Rec) :
    ∀ cols r j, (∀ cv ∈ cols, scanColsSkip sc cv.1 = true) →
    ¬ pkTargets m m.primaryKey j →
    recGet (procCols m sc src cols r) j = recGet r j := by
  intro cols
  induction cols with
  | nil => intro r j _ _; rfl
  | cons cv rest ih =>
    intro r j hskip hnt
    simp only [procCols]
    rw [ih _ j (fun c hc => hskip c (List.mem_cons_of_mem _ hc)) hnt,
      rowStep_skip m sc src cv r (hskip cv (List.mem_cons_self _ _)),
      recGet_writePK_of_not m src _ _ _ hnt]

theorem recGet_procCols_skip_targets (m : Model) (sc : Option (List (List Nat)))
    (src : Rec) (hv : pkValidB m src = true) :
    ∀ cols r j, cols ≠ [] → (∀ cv ∈ cols, scanColsSkip sc cv.1 = true) →
    pkTargets m m.primaryKey j → j < r.length →
    recGet (procCols m sc src cols r) j = recGet src j := by
  intro cols
  induction cols with
  | nil => intro r j h; exact absurd rfl h
  | cons cv rest ih =>
    intro r j _ hskip ht hj
    simp only [procCols]
    cases rest with
    | nil =>
      simp only [procCols]
      rw [rowStep_skip m sc src cv r (hskip cv (List.mem_cons_self _ _))]
      exact recGet_writePK_of_targets m src _ _ _ ht hj (pkValidB_isSome m src hv)
    | cons cv2 rest2 =>
      exact ih _ j (by simp) (fun c hc => hskip c (List.mem_cons_of_mem _ hc)) ht
        (by rw [rowStep_length]; exact hj)

theorem zeroRec_length (m : Model) : (zeroRec m).length = m.fields.length := by
  simp [zeroRec]

/-- Under an all-excluding filter, the reconstructed record of a group is the
zero record with exactly the primary-key fields overwritten from the group's
source record. -/
theorem groupRec_all_skip (m : Model) (sc : Option (List (List Nat))) (g : ScanGroup)
    (hv : pkValidB m g.src = true) (hne : g.cols ≠ [])
    (hskip : ∀ cv ∈ g.cols, scanColsSkip sc cv.1 = true) :
    groupRec m sc g = writePKFields m m.primaryKey g.src (zeroRec m) := by
  apply recExt
  · rw [groupRec, procCols_length, writePKFields_length]
  · intro j
    by_cases ht : pkTargets m m.primaryKey j
    · have hj : j < (zeroRec m).length := by
        obtain ⟨c, hc, k, hk⟩ := ht
        rw [zeroRec_length]
        exact lookupField_lt _ _ _ _ hk
      rw [groupRec]
      rw [recGet_procCols_skip_targets m sc g.src hv g.cols (zeroRec m) j hne hskip ht hj]
      rw [recGet_writePK_of_targets m g.src _ _ _ ht hj (pkValidB_isSome m g.src hv)]
    · rw [groupRec]
      rw [recGet_procCols_skip_not m sc g.src g.cols (zeroRec m) j hskip ht]
      rw [recGet_writePK_of_not m g.src _ _ _ ht]

/-- The reconstructed record of a group carries the group's primary-key
identity. -/
theorem pkProj_groupRec (m : Model) (sc : Option (List (List Nat))) (g : ScanGroup)
    (hv : pkValidB m g.src = true) (hne : g.cols ≠ [])
    (hall : g.cols.all (colOK m sc) = true) :
    pkProj m (groupRec m sc g) = pkProj m g.src := by
  rw [groupRec]
  exact pkProj_procCols m sc g.src hv g.cols (zeroRec m) hne hall
    (by rw [zeroRec_length])

theorem exceptOk_exists {α : Type} (e : Except String α) (h : exceptOk e = true) :
    ∃ a, e = .ok a := by
  cases e with
  | ok a => exact ⟨a, rfl⟩
  | error msg => simp [exceptOk] at h

theorem rowStep_assign (m : Model) (sc : Option (List (List Nat))) (src : Rec)
    (cv : List Nat × ProtoValue) (r : Rec) (i : Nat) (k : TableKind) (val : TableValue)
    (hs : scanColsSkip sc cv.1 = false)
    (hlk : lookupField m.fields cv.1 = some (i, k))
    (hu : unmarshalTableValue (some cv.2) k = .ok val) :
    rowStep m sc src cv r = recSet (writePKFields m m.primaryKey src r) i val := by
  unfold rowStep
  rw [if_neg (by simp [hs])]
  simp only [hlk, hu]

/-- The post-boundary step on an in-group row: the record gets the group's
primary key re-decoded and (unless filtered) the value assigned; the loop
continues with the group's primary key as current. -/
theorem scanStep_row (m : Model) (sc : Option (List (List Nat))) (src : Rec)
    (hv : pkValidB m src = true) (cv : List Nat × ProtoValue)
    (hok : colOK m sc cv = true) (r : Rec) (s : List Rec)
    (cont : Option (List Nat) → Rec → List Rec → Except String (List Rec)) :
    scanStep m sc ⟨pkOfRec m src ++ cv.1, cv.2⟩ r s cont
      = cont (some (pkOfRec m src)) (rowStep m sc src cv r) s := by
  have he : m.encodePrimaryKey src = .ok (pkOfRec m src) :=
    Model.encodePrimaryKey_eq m src hv
  have hdec := Model.decodePrimaryKey_encode m src _ hv he cv.1 r
  simp only [scanStep]
  rw [hdec]
  dsimp only
  rw [take_columnKey]
  by_cases hs : scanColsSkip sc cv.1 = true
  · rw [if_pos hs, rowStep_skip m sc src cv r hs]
  · have hs' : scanColsSkip sc cv.1 = false := by
      cases hb : scanColsSkip sc cv.1
      · rfl
      · exact absurd hb hs
    simp only [colOK, Bool.or_eq_true] at hok
    rcases hok with hok | hok
    · exact absurd hok hs
    · cases hlk : lookupField m.fields cv.1 with
      | none => rw [hlk] at hok; exact Bool.noConfusion hok
      | some ik =>
        obtain ⟨i, k⟩ := ik
        rw [hlk] at hok
        simp only [Bool.and_eq_true] at hok
        obtain ⟨val, hu⟩ := exceptOk_exists _ hok.2
        rw [if_neg (by simp [hs'])]
        simp only [hlk, hu]
        rw [rowStep_assign m sc src cv r i k val hs' hlk hu]

/-- One loop iteration on an in-group row when no boundary is detected. -/
theorem scanLoop_cons_common (m : Model) (sc : Option (List (List Nat))) (src : Rec)
    (hv : pkValidB m src = true) (cv : List Nat × ProtoValue)
    (hok : colOK m sc cv = true) (p? : Option (List Nat))
    (hnb : ∀ p, p? = some p → p.isPrefixOf (pkOfRec m src ++ cv.1) = true)
    (rows : List ScanRow) (r : Rec) (s : List Rec) :
    scanLoop m sc (⟨pkOfRec m src ++ cv.1, cv.2⟩ :: rows) p? r s
      = scanLoop m sc rows (some (pkOfRec m src)) (rowStep m sc src cv r) s := by
  cases p? with
  | none =>
    show scanStep m sc ⟨pkOfRec m src ++ cv.1, cv.2⟩ r s (scanLoop m sc rows) = _
    exact scanStep_row m sc src hv cv hok r s _
  | some p =>
    have hp := hnb p rfl
    show (match (if p.isPrefixOf (pkOfRec m src ++ cv.1) then Except.ok (r, s)
        else
          match m.decodePrimaryKey p (zeroRec m) with
          | .ok (_, fresh) => Except.ok (fresh, s ++ [r])
          | .error e => Except.error e : Except String (Rec × List Rec)) with
      | .error e => (.error e : Except String (List Rec))
      | .ok (result, sliceV) =>
        scanStep m sc ⟨pkOfRec m src ++ cv.1, cv.2⟩ result sliceV (scanLoop m sc rows)) = _
    rw [if_pos (by rw [hp])]
    exact scanStep_row m sc src hv cv hok r s _

/-- One loop iteration on the first row of a new group: the boundary is
detected, the previous record is flushed, and a fresh record (with the
previous primary key decoded into it, then overwritten by the new row's)
continues the loop. -/
theorem scanLoop_cons_boundary (m : Model) (sc : Option (List (List Nat)))
    (prevSrc src : Rec) (hvp : pkValidB m prevSrc = true) (hv : pkValidB m src = true)
    (cv : List Nat × ProtoValue) (hok : colOK m sc cv = true)
    (hnp : (pkOfRec m prevSrc).isPrefixOf (pkOfRec m src ++ cv.1) = false)
    (rows : List ScanRow) (r : Rec) (s : List Rec) :
    scanLoop m sc (⟨pkOfRec m src ++ cv.1, cv.2⟩ :: rows) (some (pkOfRec m prevSrc)) r s
      = scanLoop m sc rows (some (pkOfRec m src))
          (rowStep m sc src cv (writePKFields m m.primaryKey prevSrc (zeroRec m)))
          (s ++ [r]) := by
  have hep : m.encodePrimaryKey prevSrc = .ok (pkOfRec m prevSrc) :=
    Model.encodePrimaryKey_eq m prevSrc hvp
  have hdec0 : m.decodePrimaryKey (pkOfRec m prevSrc) (zeroRec m)
      = .ok ([], writePKFields m m.primaryKey prevSrc (zeroRec m)) := by
    have h := Model.decodePrimaryKey_encode m prevSrc _ hvp hep [] (zeroRec m)
    simpa using h
  show (match (if (pkOfRec m prevSrc).isPrefixOf (pkOfRec m src ++ cv.1) then
        Except.ok (r, s)
      else
        match m.decodePrimaryKey (pkOfRec m prevSrc) (zeroRec m) with
        | .ok (_, fresh) => Except.ok (fresh, s ++ [r])
        | .error e => Except.error e : Except String (Rec × List Rec)) with
    | .error e => (.error e : Except String (List Rec))
    | .ok (result, sliceV) =>
      scanStep m sc ⟨pkOfRec m src ++ cv.1, cv.2⟩ result sliceV (scanLoop m sc rows)) = _
  rw [if_neg (by rw [hnp]; exact Bool.noConfusion), hdec0]
  exact scanStep_row m sc src hv cv hok _ _ _

/-- Processing all rows of one group from the group's own primary-key state
accumulates `procCols` into the record and never crosses a boundary. -/
theorem scanLoop_group_cols (m : Model) (sc : Option (List (List Nat))) (src : Rec)
    (hv : pkValidB m src = true) :
    ∀ cols, cols.all (colOK m sc) = true → ∀ rows r s,
    scanLoop m sc (cols.map (fun cv => ⟨pkOfRec m src ++ cv.1, cv.2⟩) ++ rows)
        (some (pkOfRec m src)) r s
      = scanLoop m sc rows (some (pkOfRec m src)) (procCols m sc src cols r) s := by
  intro cols
  induction cols with
  | nil => intro _ rows r s; simp [procCols]
  | cons cv rest ih =>
    intro hall rows r s
    simp only [List.all_cons, Bool.and_eq_true] at hall
    simp only [List.map_cons, List.cons_append]
    rw [scanLoop_cons_common m sc src hv cv hall.1 _
      (fun p hp => by
        injection hp with hp
        subst hp
        exact isPrefixOf_append_self _ _)]
    exact ih hall.2 rows (rowStep m sc src cv r) s

theorem rowStep_congr (m : Model) (sc : Option (List (List Nat))) (src : Rec)
    (hv : pkValidB m src = true) (cv : List Nat × ProtoValue) (r1 r2 : Rec)
    (hlen : r1.length = r2.length) (hr : m.fields.length ≤ r1.length)
    (hagree : ∀ j, ¬ pkTargets m m.primaryKey j → recGet r1 j = recGet r2 j) :
    rowStep m sc src cv r1 = rowStep m sc src cv r2 := by
  have hw : writePKFields m m.primaryKey src r1 = writePKFields m m.primaryKey src r2 := by
    apply recExt
    · rw [writePKFields_length, writePKFields_length, hlen]
    · intro j
      by_cases ht : pkTargets m m.primaryKey j
      · have hj1 : j < r1.length := by
          obtain ⟨c, hc, k, hk⟩ := ht
          exact Nat.lt_of_lt_of_le (lookupField_lt _ _ _ _ hk) hr
        rw [recGet_writePK_of_targets m src _ _ _ ht hj1 (pkValidB_isSome m src hv),
          recGet_writePK_of_targets m src _ _ _ ht (by omega) (pkValidB_isSome m src hv)]
      · rw [recGet_writePK_of_not m src _ _ _ ht, recGet_writePK_of_not m src _ _ _ ht]
        exact hagree j ht
  unfold rowStep
  rw [hw]

theorem procCols_entering (m : Model) (sc : Option (List (List Nat))) (src : Rec)
    (hv : pkValidB m src = true) :
    ∀ cols r1 r2, cols ≠ [] → r1.length = r2.length → m.fields.length ≤ r1.length →
    (∀ j, ¬ pkTargets m m.primaryKey j → recGet r1 j = recGet r2 j) →
    procCols m sc src cols r1 = procCols m sc src cols r2 := by
  intro cols
  cases cols with
  | nil => intro r1 r2 h; exact absurd rfl h
  | cons cv rest =>
    intro r1 r2 _ hlen hr hag
    simp only [procCols]
    rw [rowStep_congr m sc src hv cv r1 r2 hlen hr hag]

/-- The scan loop over whole groups, entering with an established current
primary key: each group flushes its predecessor and reconstructs its own
record, and after the last row the final record is flushed. -/
theorem scanLoop_groups (m : Model) (sc : Option (List (List Nat))) :
    ∀ (gs : List ScanGroup) (prevSrc : Rec) (r : Rec) (s : List Rec),
    pkValidB m prevSrc = true →
    gs.all (groupOK m sc) = true →
    ascChain (pkOfRec m prevSrc :: gs.map (fun g => pkOfRec m g.src)) = true →
    scanLoop m sc (allGroupRows m gs) (some (pkOfRec m prevSrc)) r s
      = .ok (s ++ r :: gs.map (groupRec m sc)) := by
  intro gs
  induction gs with
  | nil =>
    intro prevSrc r s _ _ _
    simp [allGroupRows, scanLoop]
  | cons g gs' ih =>
    intro prevSrc r s hvp hall hasc
    simp only [List.all_cons, Bool.and_eq_true] at hall
    obtain ⟨hg, hgs⟩ := hall
    simp only [groupOK, Bool.and_eq_true, Bool.not_eq_true'] at hg
    obtain ⟨⟨hvg, hgne⟩, hgcols⟩ := hg
    simp only [List.map_cons, ascChain, Bool.and_eq_true] at hasc
    obtain ⟨hlex, hasc'⟩ := hasc
    cases hc : g.cols with
    | nil => rw [hc] at hgne; exact Bool.noConfusion hgne
    | cons cv cvs =>
      have hrows : allGroupRows m (g :: gs')
          = (⟨pkOfRec m g.src ++ cv.1, cv.2⟩ :: cvs.map
              (fun cv => ⟨pkOfRec m g.src ++ cv.1, cv.2⟩)) ++ allGroupRows m gs' := by
        simp [allGroupRows, groupRows, hc]
      rw [hrows]
      have hne : pkOfRec m prevSrc ≠ pkOfRec m g.src := lexLt_ne hlex
      have hnp : (pkOfRec m prevSrc).isPrefixOf (pkOfRec m g.src ++ cv.1) = false :=
        encodePK_not_prefix m prevSrc g.src _ _ hvp hvg
          (Model.encodePrimaryKey_eq m prevSrc hvp) (Model.encodePrimaryKey_eq m g.src hvg)
          hne cv.1
      have hcvok : colOK m sc cv = true := by
        rw [hc] at hgcols
        simp only [List.all_cons, Bool.and_eq_true] at hgcols
        exact hgcols.1
      have hcvsok : cvs.all (colOK m sc) = true := by
        rw [hc] at hgcols
        simp only [List.all_cons, Bool.and_eq_true] at hgcols
        exact hgcols.2
      rw [List.cons_append]
      rw [scanLoop_cons_boundary m sc prevSrc g.src hvp hvg cv hcvok hnp]
      rw [scanLoop_group_cols m sc g.src hvg cvs hcvsok]
      have hrec : procCols m sc g.src cvs
          (rowStep m sc g.src cv (writePKFields m m.primaryKey prevSrc (zeroRec m)))
          = groupRec m sc g := by
        have hstep : procCols m sc g.src (cv :: cvs)
            (writePKFields m m.primaryKey prevSrc (zeroRec m))
            = procCols m sc g.src (cv :: cvs) (zeroRec m) := by
          apply procCols_entering m sc g.src hvg (cv :: cvs) _ _ (by simp)
          · rw [writePKFields_length]
          · rw [writePKFields_length, zeroRec_length]
          · intro j hnt
            exact recGet_writePK_of_not m prevSrc _ _ _ hnt
        rw [groupRec, hc]
        exact hstep
      rw [hrec]
      rw [ih g.src (groupRec m sc g) (s ++ [r]) hvg hgs hasc']
      simp

/-- The scan reconstructor on a well-formed, strictly ascending grouped reply:
the destination receives exactly one reconstructed record per group, in
order. -/
theorem scanPost_groups (m : Model) (columns : List (List Nat)) (gs : List ScanGroup)
    (dest : List Rec)
    (hall : gs.all (groupOK m (if columns.isEmpty then none else some columns)) = true)
    (hasc : ascChain (gs.map (fun g => pkOfRec m g.src)) = true) :
    scanPost m columns (allGroupRows m gs) dest
      = .ok (dest ++ gs.map (groupRec m (if columns.isEmpty then none else some columns))) := by
  cases gs with
  | nil => simp [scanPost, allGroupRows]
  | cons g gs' =>
    simp only [List.all_cons, Bool.and_eq_true] at hall
    obtain ⟨hg, hgs⟩ := hall
    simp only [groupOK, Bool.and_eq_true, Bool.not_eq_true'] at hg
    obtain ⟨⟨hvg, hgne⟩, hgcols⟩ := hg
    simp only [List.map_cons, ascChain] at hasc
    cases hc : g.cols with
    | nil => rw [hc] at hgne; exact Bool.noConfusion hgne
    | cons cv cvs =>
      have hrows : allGroupRows m (g :: gs')
          = (⟨pkOfRec m g.src ++ cv.1, cv.2⟩ :: cvs.map
              (fun cv => ⟨pkOfRec m g.src ++ cv.1, cv.2⟩)) ++ allGroupRows m gs' := by
        simp [allGroupRows, groupRows, hc]
      have hcvok : colOK m (if columns.isEmpty then none else some columns) cv = true := by
        rw [hc] at hgcols
        simp only [List.all_cons, Bool.and_eq_true] at hgcols
        exact hgcols.1
      have hcvsok : cvs.all (colOK m (if columns.isEmpty then none else some columns))
          = true := by
        rw [hc] at hgcols
        simp only [List.all_cons, Bool.and_eq_true] at hgcols
        exact hgcols.2
      rw [scanPost, hrows]
      rw [if_neg (by simp)]
      rw [List.cons_append]
      rw [scanLoop_cons_common m _ g.src hvg cv hcvok none (fun p hp => Option.noConfusion hp)]
      rw [scanLoop_group_cols m _ g.src hvg cvs hcvsok]
      have hrec : procCols m (if columns.isEmpty then none else some columns) g.src cvs
          (rowStep m (if columns.isEmpty then none else some columns) g.src cv (zeroRec m))
          = groupRec m (if columns.isEmpty then none else some columns) g := by
        rw [groupRec, hc]
        rfl
      rw [hrec]
      cases hgs' : gs' with
      | nil =>
        simp only [allGroupRows, List.map_nil, List.flatten_nil]
        show Except.ok (dest ++ [groupRec m _ g]) = _
        simp
      | cons g2 gs2 =>
        rw [← hgs']
        have hasc2 : ascChain (pkOfRec m g.src :: gs'.map (fun g => pkOfRec m g.src))
            = true := by
          cases hgl : gs'.map (fun g => pkOfRec m g.src) with
          | nil => rfl
          | cons p ps =>
            rw [hgl] at hasc
            exact hasc
        rw [scanLoop_groups m _ gs' g.src (groupRec m _ g) dest hvg hgs hasc2]
        simp

/- ===================== DB registry and batch operations ===================== -/

/-- Go types as the table layer observes them through reflection: struct
types carry their (modelled) introspected field map. -/
inductive GoType where
  | structT (id : String) (fields : FieldMap)
  | ptrT (t : GoType)
  | sliceT (t : GoType)
  | otherT (id : String)
deriving DecidableEq

/-- Modelled from the spec: the `deref` helper — strip pointer types. -/
def deref : GoType → GoType
  | .ptrT t => deref t
  | .structT id fs => .structT id fs
  | .sliceT t => .sliceT t
  | .otherT id => .otherT id

/-- `reflect.Indirect` at the type level: strip one pointer. -/
def indirect : GoType → GoType
  | .ptrT t => t
  | t => t

/-- A Go argument value: its reflect type and (for struct arguments) the
record contents. -/
structure ObjArg where
  typ : GoType
  record : Rec
deriving DecidableEq

/-- The `DB.experimentalModels` registry: record type to bound model. -/
structure DB where
  models : List (GoType × Model)
deriving DecidableEq

def lookupModel : List (GoType × Model) → GoType → Option Model
  | [], _ => none
  | (t, m) :: rest, t' => if t = t' then some m else lookupModel rest t'

def ptrRequiredMsg : String := "pointer type required"
def noModelMsg : String := "unable to find model"

/-- Translation of `DB.getModel` (client/table.go): an assertion that the
argument is pointer-shaped (for read/increment write-back), then a registry
lookup of the dereferenced type. -/
def DB.getModel (db : DB) (t : GoType) (mustBePointer : Bool) : Except String Model :=
  if mustBePointer && !(match t with | .ptrT _ => true | _ => false) then
    .error ptrRequiredMsg
  else
    match lookupModel db.models (deref t) with
    | some m => .ok m
    | none => .error noModelMsg

/-- A primitive key-value call (`client.Call`); the deferred post-processing
closures attached to Get/Increment/Scan calls are modelled separately
(`unmarshalTableValue`, `scanPost`). -/
inductive Call where
  | get (key : List Nat)
  | put (key : List Nat) (value : ProtoValue)
  | inc (key : List Nat) (delta : Int)
  | scan (startKey endKey : List Nat) (maxRows : Int)
  | del (key : List Nat)
deriving DecidableEq

structure BResult where
  numCalls : Nat
  err : Option String
deriving DecidableEq

/-- The call list and result list of a `Batch`. -/
structure Batch where
  calls : List Call
  results : List BResult
deriving DecidableEq

/-- `Batch.initResult`: record a result entry (carrying the synchronous
error, if any). -/
def Batch.initResult (b : Batch) (numCalls _numResults : Nat) (err : Option String) :
    Batch :=
  { b with results := b.results ++ [⟨numCalls, err⟩] }

/-- The per-column loop of `Batch.GetStruct`: calls are accumulated locally
and abandoned wholesale on the first unknown column. -/
def getCallsLoop (m : Model) (pk : List Nat) : List (List Nat) → Except String (List Call)
  | [] => .ok []
  | col :: cols =>
    match lookupField m.fields col with
    | none => .error unableToFindFieldMsg
    | some _ =>
      match getCallsLoop m pk cols with
      | .ok cs => .ok (Call.get (m.encodeColumnKey pk col) :: cs)
      | .error e => .error e

/-- Translation of `Batch.GetStruct` (client/table.go). -/
def Batch.GetStruct (b : Batch) (db : DB) (obj : ObjArg) (columns : List (List Nat)) :
    Batch :=
  match db.getModel obj.typ true with
  | .error e => b.initResult 0 0 (some e)
  | .ok m =>
    match m.encodePrimaryKey obj.record with
    | .error e => b.initResult 0 0 (some e)
    | .ok primaryKey =>
      match getCallsLoop m primaryKey (if columns.isEmpty then m.otherColumns else columns) with
      | .error e => b.initResult 0 0 (some e)
      | .ok calls =>
        { calls := b.calls ++ calls,
          results := b.results ++ [⟨calls.length, none⟩] }

/-- The per-column loop of `Batch.PutStruct`: unknown column or marshal
failure abandons all locally accumulated calls. -/
def putCallsLoop (m : Model) (pk : List Nat) (v : Rec) :
    List (List Nat) → Except String (List Call)
  | [] => .ok []
  | col :: cols =>
    match lookupField m.fields col with
    | none => .error unableToFindFieldMsg
    | some (i, _) =>
      match marshalTableValue (recGet v i) with
      | .error e => .error e
      | .ok pv =>
        match putCallsLoop m pk v cols with
        | .ok cs => .ok (Call.put (m.encodeColumnKey pk col) pv :: cs)
        | .error e => .error e

/-- Translation of `Batch.PutStruct` (client/table.go): the object is
indirected first, so both values and pointers are accepted. -/
def Batch.PutStruct (b : Batch) (db : DB) (obj : ObjArg) (columns : List (List Nat)) :
    Batch :=
  match db.getModel (indirect obj.typ) false with
  | .error e => b.initResult 0 0 (some e)
  | .ok m =>
    match m.encodePrimaryKey obj.record with
    | .error e => b.initResult 0 0 (some e)
    | .ok primaryKey =>
      match putCallsLoop m primaryKey obj.record
          (if columns.isEmpty then m.otherColumns else columns) with
      | .error e => b.initResult 0 0 (some e)
      | .ok calls =>
        { calls := b.calls ++ calls,
          results := b.results ++ [⟨calls.length, none⟩] }

/-- Translation of `Batch.IncStruct` (client/table.go): a single increment
call on the named column's key. -/
def Batch.IncStruct (b : Batch) (db : DB) (obj : ObjArg) (value : Int)
    (column : List Nat) : Batch :=
  match db.getModel obj.typ true with
  | .error e => b.initResult 0 0 (some e)
  | .ok m =>
    match m.encodePrimaryKey obj.record with
    | .error e => b.initResult 0 0 (some e)
    | .ok primaryKey =>
      match lookupField m.fields column with
      | none => b.initResult 0 0 (some unableToFindFieldMsg)
      | some _ =>
        { calls := b.calls ++ [Call.inc (m.encodeColumnKey primaryKey column) value],
          results := b.results ++ [⟨1, none⟩] }

/-- The per-column loop of `Batch.DelStruct`. -/
def delCallsLoop (m : Model) (pk : List Nat) : List (List Nat) → Except String (List Call)
  | [] => .ok []
  | col :: cols =>
    if (lookupField m.fields col).isSome then
      match delCallsLoop m pk cols with
      | .ok cs => .ok (Call.del (m.encodeColumnKey pk col) :: cs)
      | .error e => .error e
    else .error unableToFindFieldMsg

/-- Translation of `Batch.DelStruct` (client/table.go). -/
def Batch.DelStruct (b : Batch) (db : DB) (obj : ObjArg) (columns : List (List Nat)) :
    Batch :=
  match db.getModel (indirect obj.typ) false with
  | .error e => b.initResult 0 0 (some e)
  | .ok m =>
    match m.encodePrimaryKey obj.record with
    | .error e => b.initResult 0 0 (some e)
    | .ok primaryKey =>
      match delCallsLoop m primaryKey
          (if columns.isEmpty then m.otherColumns else columns) with
      | .error e => b.initResult 0 0 (some e)
      | .ok calls =>
        { calls := b.calls ++ calls,
          results := b.results ++ [⟨calls.length, none⟩] }

def destSliceMsg : String := "dest must be a pointer to a slice"
def incompatibleStartMsg : String := "incompatible start key type"
def incompatibleEndMsg : String := "incompatible end key type"

/-- Translation of `Batch.ScanStruct` call construction (client/table.go):
validate the destination shape (pointer to slice, of structs or pointers to
structs), the binding, and the start/end bound types; encode both bounds;
then append exactly one scan call (whose reply post-processing is
`scanPost`). -/
def Batch.ScanStruct (b : Batch) (db : DB) (destTyp : GoType) (start endArg : ObjArg)
    (maxRows : Int) (_columns : List (List Nat)) : Batch :=
  match destTyp with
  | .ptrT (.sliceT elemT) =>
    let modelT := indirect elemT
    match db.getModel modelT false with
    | .error e => b.initResult 0 0 (some e)
    | .ok m =>
      if indirect start.typ ≠ modelT then b.initResult 0 0 (some incompatibleStartMsg)
      else if indirect endArg.typ ≠ modelT then b.initResult 0 0 (some incompatibleEndMsg)
      else
        match m.encodePrimaryKey start.record with
        | .error e => b.initResult 0 0 (some e)
        | .ok startKey =>
          match m.encodePrimaryKey endArg.record with
          | .error e => b.initResult 0 0 (some e)
          | .ok endKey =>
            { calls := b.calls ++ [Call.scan startKey endKey maxRows],
              results := b.results ++ [⟨1, none⟩] }
  | _ => b.initResult 0 0 (some destSliceMsg)

theorem getCallsLoop_length (m : Model) (pk : List Nat) :
    ∀ cols cs, getCallsLoop m pk cols = .ok cs → cs.length = cols.length := by
  intro cols
  induction cols with
  | nil => intro cs h; injection h with h; subst h; rfl
  | cons col cols ih =>
    intro cs h
    simp only [getCallsLoop] at h
    cases hlk : lookupField m.fields col with
    | none => rw [hlk] at h; exact Except.noConfusion h
    | some ik =>
      rw [hlk] at h
      cases hrec : getCallsLoop m pk cols with
      | error e => rw [hrec] at h; exact Except.noConfusion h
      | ok cs' =>
        rw [hrec] at h
        injection h with h
        subst h
        simp [ih cs' hrec]

theorem putCallsLoop_length (m : Model) (pk : List Nat) (v : Rec) :
    ∀ cols cs, putCallsLoop m pk v cols = .ok cs → cs.length = cols.length := by
  intro cols
  induction cols with
  | nil => intro cs h; injection h with h; subst h; rfl
  | cons col cols ih =>
    intro cs h
    simp only [putCallsLoop] at h
    cases hlk : lookupField m.fields col with
    | none => rw [hlk] at h; exact Except.noConfusion h
    | some ik =>
      obtain ⟨i, k⟩ := ik
      rw [hlk] at h
      dsimp only at h
      cases hm : marshalTableValue (recGet v i) with
      | error e => rw [hm] at h; exact Except.noConfusion h
      | ok pv =>
        rw [hm] at h
        cases hrec : putCallsLoop m pk v cols with
        | error e => rw [hrec] at h; exact Except.noConfusion h
        | ok cs' =>
          rw [hrec] at h
          injection h with h
          subst h
          simp [ih cs' hrec]

theorem delCallsLoop_length (m : Model) (pk : List Nat) :
    ∀ cols cs, delCallsLoop m pk cols = .ok cs → cs.length = cols.length := by
  intro cols
  induction cols with
  | nil => intro cs h; injection h with h; subst h; rfl
  | cons col cols ih =>
    intro cs h
    simp only [delCallsLoop] at h
    by_cases hlk : (lookupField m.fields col).isSome
    · rw [if_pos hlk] at h
      cases hrec : delCallsLoop m pk cols with
      | error e => rw [hrec] at h; exact Except.noConfusion h
      | ok cs' =>
        rw [hrec] at h
        injection h with h
        subst h
        simp [ih cs' hrec]
    · rw [if_neg hlk] at h
      exact Except.noConfusion h

/- ===================== BindModel ===================== -/

def alreadyDefinedMsg : String := "already defined"
def getDBFieldsErrMsg : String := "unable to introspect type"

/-- Modelled from the spec: `getDBFields` — computes the field map by
introspecting the record type once (exported fields with naming overrides and
opt-out markers; the modelled struct type carries the resulting map
directly).  Non-struct types have no fields. -/
def getDBFields : GoType → Except String FieldMap
  | .structT _ fs => .ok fs
  | .ptrT _ => .error getDBFieldsErrMsg
  | .sliceT _ => .error getDBFieldsErrMsg
  | .otherT _ => .error getDBFieldsErrMsg

/-- Translation of `DB.BindModel` (client/table.go): fails with "already
defined" when the (dereferenced) record type is already bound; otherwise
introspects the type, derives `otherColumns` as the non-primary-key fields,
and registers the binding keyed by the record type.  NOTE — faithful to the
source: the supplied primary-key column names are NOT validated against the
field map (the source carries a `TODO(pmattis)` for exactly this check), and
no table-name uniqueness check exists either; on any failure the registry is
unchanged (the Go code returns before the map insert). -/
def DB.BindModel (db : DB) (name : List Nat) (objTyp : GoType)
    (primaryKey : List (List Nat)) : Except String DB :=
  let t := deref objTyp
  match lookupModel db.models t with
  | some _ => .error alreadyDefinedMsg
  | none =>
    match getDBFields t with
    | .error e => .error e
    | .ok fields =>
      let m : Model :=
        { name := name, fields := fields, primaryKey := primaryKey,
          otherColumns :=
            (fields.filter (fun f => !colElem f.1 primaryKey)).map (fun f => f.1) }
      .ok { models := db.models ++ [(t, m)] }

/- ===================== Go byte-slice heap model (encodeColumnKey) ============ -/

/-- A heap of byte buffers; a buffer id is its index, allocation appends. -/
abbrev Heap := List (List Nat)

/-- A Go byte slice: backing buffer (none for a nil slice), offset, length
and capacity. -/
structure GoSlice where
  buf : Option Nat
  off : Nat
  len : Nat
  cap : Nat
deriving DecidableEq

def nilSlice : GoSlice := ⟨none, 0, 0, 0⟩

def heapGet : Heap → Nat → List Nat
  | [], _ => []
  | d :: _, 0 => d
  | _ :: ds, i + 1 => heapGet ds i

def heapSet : Heap → Nat → List Nat → Heap
  | [], _, _ => []
  | _ :: ds, 0, d => d :: ds
  | e :: ds, i + 1, d => e :: heapSet ds i d

/-- The bytes a slice denotes. -/
def readSlice (h : Heap) (s : GoSlice) : List Nat :=
  match s.buf with
  | none => []
  | some i => ((heapGet h i).drop s.off).take s.len

def overwrite (l : List Nat) (pos : Nat) (xs : List Nat) : List Nat :=
  l.take pos ++ xs ++ l.drop (pos + xs.length)

/-- Go `append` on byte slices: appending nothing returns the slice
unchanged; if the spare capacity suffices the bytes are written into the
backing buffer in place; otherwise a fresh buffer is allocated (with an
implementation-chosen capacity `grow`) and the contents copied. -/
def goAppend (grow : Nat → Nat) (h : Heap) (s : GoSlice) (xs : List Nat) :
    Heap × GoSlice :=
  if xs.isEmpty then (h, s)
  else if s.len + xs.length ≤ s.cap then
    match s.buf with
    | some i =>
      (heapSet h i (overwrite (heapGet h i) (s.off + s.len) xs),
       { s with len := s.len + xs.length })
    | none => (h ++ [xs], ⟨some h.length, 0, xs.length, xs.length⟩)
  else
    (h ++ [readSlice h s ++ xs ++ List.replicate (grow (s.len + xs.length) - (s.len + xs.length)) 0],
     ⟨some h.length, 0, s.len + xs.length, grow (s.len + xs.length)⟩)

/-- Translation of `model.encodeColumnKey` (client/table.go) at the Go slice
level, with explicit buffers, exposing allocation and aliasing:
`var key []byte; key = append(key, primaryKey...); return append(key, column...)`. -/
def encodeColumnKeyGo (grow : Nat → Nat) (h : Heap) (primaryKey : GoSlice)
    (column : List Nat) : Heap × GoSlice :=
  let step1 := goAppend grow h nilSlice (readSlice h primaryKey)
  goAppend grow step1.1 step1.2 column

theorem heapGet_append_lt : ∀ (h : Heap) (d : List Nat) (j : Nat), j < h.length →
    heapGet (h ++ [d]) j = heapGet h j := by
  intro h
  induction h with
  | nil => intro d j hj; simp at hj
  | cons e h ih =>
    intro d j hj
    cases j with
    | zero => rfl
    | succ j => exact ih d j (by simpa using hj)

theorem heapGet_append_self : ∀ (h : Heap) (d : List Nat),
    heapGet (h ++ [d]) h.length = d := by
  intro h
  induction h with
  | nil => intro d; rfl
  | cons e h ih => intro d; exact ih d

theorem heapSet_append_self : ∀ (h : Heap) (d d' : List Nat),
    heapSet (h ++ [d]) h.length d' = h ++ [d'] := by
  intro h
  induction h with
  | nil => intro d d'; rfl
  | cons e h ih => intro d d'; simp [heapSet, ih]

theorem heapSet_length : ∀ (h : Heap) (i : Nat) (d : List Nat),
    (heapSet h i d).length = h.length := by
  intro h
  induction h with
  | nil => intro i d; rfl
  | cons e h ih =>
    intro i d
    cases i with
    | zero => rfl
    | succ i => simp [heapSet, ih]

theorem goAppend_nil_xs (grow : Nat → Nat) (h : Heap) (s : GoSlice) :
    goAppend grow h s [] = (h, s) := by
  simp [goAppend]

theorem isEmpty_false_of_ne {α : Type} {xs : List α} (hxs : xs ≠ []) : xs.isEmpty = false := by
  cases xs with
  | nil => exact absurd rfl hxs
  | cons a as => rfl

theorem goAppend_alloc (grow : Nat → Nat) (h : Heap) (s : GoSlice) (xs : List Nat)
    (hxs : xs ≠ []) (hcap : ¬ (s.len + xs.length ≤ s.cap)) :
    goAppend grow h s xs
      = (h ++ [readSlice h s ++ xs
            ++ List.replicate (grow (s.len + xs.length) - (s.len + xs.length)) 0],
         ⟨some h.length, 0, s.len + xs.length, grow (s.len + xs.length)⟩) := by
  unfold goAppend
  rw [if_neg (by rw [isEmpty_false_of_ne hxs]; exact Bool.noConfusion), if_neg hcap]

theorem goAppend_inplace (grow : Nat → Nat) (h : Heap) (s : GoSlice) (xs : List Nat)
    (i : Nat) (hxs : xs ≠ []) (hcap : s.len + xs.length ≤ s.cap) (hbuf : s.buf = some i) :
    goAppend grow h s xs
      = (heapSet h i (overwrite (heapGet h i) (s.off + s.len) xs),
         { s with len := s.len + xs.length }) := by
  unfold goAppend
  rw [if_neg (by rw [isEmpty_false_of_ne hxs]; exact Bool.noConfusion), if_pos hcap, hbuf]

/-- `readSlice` on a literal slice. -/
theorem readSlice_some (h : Heap) (j off len cap : Nat) :
    readSlice h ⟨some j, off, len, cap⟩ = ((heapGet h j).drop off).take len := rfl

theorem goAppend_nil_slice (grow : Nat → Nat) (h : Heap) (xs : List Nat) (hxs : xs ≠ []) :
    goAppend grow h nilSlice xs
      = (h ++ [xs ++ List.replicate (grow xs.length - xs.length) 0],
         ⟨some h.length, 0, xs.length, grow xs.length⟩) := by
  have hlen : 0 < xs.length := List.length_pos.mpr hxs
  rw [goAppend_alloc grow h nilSlice xs hxs (by show ¬ (0 + xs.length ≤ 0); omega)]
  have h1 : readSlice h nilSlice = [] := rfl
  have h2 : nilSlice.len = 0 := rfl
  simp only [h1, h2, Nat.zero_add, List.nil_append]

/-- Full characterization of `encodeColumnKey` at the slice level, for any
capacity-growth policy: the returned key reads as the primary key followed by
the raw column name; every pre-existing buffer (in particular the primary
key's) is unchanged; and the returned slice's buffer is either nil or freshly
allocated — never an alias of a pre-existing buffer. -/
theorem encodeColumnKeyGo_spec (grow : Nat → Nat)
    (h : Heap) (pk : GoSlice) (column : List Nat) :
    readSlice (encodeColumnKeyGo grow h pk column).1 (encodeColumnKeyGo grow h pk column).2
      = readSlice h pk ++ column
    ∧ (∀ j, j < h.length → heapGet (encodeColumnKeyGo grow h pk column).1 j = heapGet h j)
    ∧ ((encodeColumnKeyGo grow h pk column).2.buf = none ∨
        ∃ j, (encodeColumnKeyGo grow h pk column).2.buf = some j ∧ h.length ≤ j ∧
          j < (encodeColumnKeyGo grow h pk column).1.length) := by
  obtain ⟨pkdata, hd⟩ : ∃ d, readSlice h pk = d := ⟨_, rfl⟩
  unfold encodeColumnKeyGo
  rw [hd]
  by_cases hpk : pkdata = []
  · subst hpk
    rw [goAppend_nil_xs]
    dsimp only
    by_cases hcol : column = []
    · subst hcol
      rw [goAppend_nil_xs]
      exact ⟨rfl, fun j _ => rfl, Or.inl rfl⟩
    · rw [goAppend_nil_slice grow h column hcol]
      refine ⟨?_, ?_, ?_⟩
      · rw [readSlice_some, heapGet_append_self, List.drop_zero, List.take_left,
          List.nil_append]
      · intro j hj
        exact heapGet_append_lt h _ j hj
      · exact Or.inr ⟨h.length, rfl, le_refl _, by simp⟩
  · rw [goAppend_nil_slice grow h pkdata hpk]
    dsimp only
    by_cases hcol : column = []
    · subst hcol
      rw [goAppend_nil_xs]
      refine ⟨?_, ?_, ?_⟩
      · rw [readSlice_some, heapGet_append_self, List.drop_zero, List.take_left,
          List.append_nil]
      · intro j hj
        exact heapGet_append_lt h _ j hj
      · exact Or.inr ⟨h.length, rfl, le_refl _, by simp⟩
    · by_cases hfit : pkdata.length + column.length ≤ grow pkdata.length
      · rw [goAppend_inplace grow _ _ column h.length hcol hfit rfl]
        dsimp only
        rw [heapGet_append_self, heapSet_append_self]
        have hover : overwrite (pkdata ++ List.replicate (grow pkdata.length
              - pkdata.length) 0) (0 + pkdata.length) column
            = pkdata ++ (column ++ (pkdata ++ List.replicate (grow pkdata.length
                - pkdata.length) 0).drop (0 + pkdata.length + column.length)) := by
          unfold overwrite
          rw [Nat.zero_add, List.take_left, List.append_assoc]
        rw [hover]
        refine ⟨?_, ?_, ?_⟩
        · rw [readSlice_some, heapGet_append_self, List.drop_zero, ← List.append_assoc]
          exact take_len_append _ _ _ (by simp)
        · intro j hj
          exact heapGet_append_lt h _ j hj
        · exact Or.inr ⟨h.length, rfl, le_refl _, by simp⟩
      · rw [goAppend_alloc grow _ _ column hcol hfit]
        dsimp only
        have hread1 : readSlice (h ++ [pkdata ++ List.replicate (grow pkdata.length
              - pkdata.length) 0])
            ⟨some h.length, 0, pkdata.length, grow pkdata.length⟩ = pkdata := by
          rw [readSlice_some, heapGet_append_self, List.drop_zero, List.take_left]
        rw [hread1]
        refine ⟨?_, ?_, ?_⟩
        · rw [readSlice_some, heapGet_append_self, List.drop_zero]
          exact take_len_append _ _ _ (by simp)
        · intro j hj
          rw [heapGet_append_lt _ _ j (by simp; omega), heapGet_append_lt h _ j hj]
        · refine Or.inr ⟨(h ++ [pkdata ++ List.replicate (grow pkdata.length
              - pkdata.length) 0]).length, rfl, by simp, by simp⟩

/- ===================== concrete fixtures (witness data) ===================== -/

/-- The `KV{K string primaryKey; V string}` model of the spec's end-to-end
example, bound to table "kv" ([107,118]); column names "k" = [107],
"v" = [118]. -/
def witModel : Model :=
  { name := [107, 118],
    fields := [([107], TableKind.str), ([118], TableKind.str)],
    primaryKey := [[107]],
    otherColumns := [[118]] }

/-- Group for record `{K:"a", V:_}` carrying column v = "b". -/
def witG1 : ScanGroup :=
  ⟨[TableValue.str [97], TableValue.str []], [([118], ⟨none, some [98]⟩)]⟩

/-- Group for record `{K:"c", V:_}` carrying column v = "d". -/
def witG2 : ScanGroup :=
  ⟨[TableValue.str [99], TableValue.str []], [([118], ⟨none, some [100]⟩)]⟩

def witKVType : GoType := .structT "KV" [([107], TableKind.str), ([118], TableKind.str)]

def witKV2Type : GoType := .structT "KV2" [([97], TableKind.int)]

def witDB0 : DB := ⟨[]⟩

def witDB1 : DB := ⟨[(witKVType, witModel)]⟩

/- ===================== the claims ===================== -/

/-- C3.  Key-codec round-trip and order preservation: for every value of a
supported primitive kind (boolean, signed integer, unsigned integer, float,
string, byte slice), `decodeTableKey` applied to the output of
`encodeTableKey` recovers the original value with an empty remainder; and for
any two values `v1 < v2` of the same supported kind, `encodeTableKey v1` is
lexicographically less than `encodeTableKey v2`, including negative versus
non-negative integers and floats. -/
theorem c3_codec_roundtrip_order :
    (∀ v : TableValue, tvValid v = true →
      ∃ e, encodeTableKey [] v = .ok e ∧ decodeTableKey e (tvKind v) = .ok ([], v))
    ∧ (∀ v1 v2 : TableValue, tvValid v1 = true → tvValid v2 = true →
        tvLt v1 v2 = true → ∀ e1 e2, encodeTableKey [] v1 = .ok e1 →
        encodeTableKey [] v2 = .ok e2 → lexLt e1 e2 = true) := by
  constructor
  · intro v hv
    refine ⟨tvFrag v, ?_, ?_⟩
    · have h := encodeTableKey_ok [] v (tvValid_kind_ne_other v hv)
      simpa using h
    · have h := decodeTableKey_frag v hv []
      simpa using h
  · intro v1 v2 h1 h2 hlt e1 e2 he1 he2
    rw [encodeTableKey_ok [] v1 (tvValid_kind_ne_other v1 h1)] at he1
    rw [encodeTableKey_ok [] v2 (tvValid_kind_ne_other v2 h2)] at he2
    injection he1 with he1
    injection he2 with he2
    rw [← he1, ← he2]
    simpa using tvFrag_mono v1 v2 h1 h2 hlt

/-- Witness for C3 at concrete inputs: the signed integers `-5 < 3`
round-trip and encode in order. -/
theorem c3_codec_roundtrip_order_witness :
    decodeTableKey (EncodeVarintFrag (-5)) TableKind.int = .ok ([], TableValue.int (-5))
    ∧ lexLt (EncodeVarintFrag (-5)) (EncodeVarintFrag 3) = true := by
  constructor
  · obtain ⟨e, he, hd⟩ := c3_codec_roundtrip_order.1 (TableValue.int (-5)) (by decide)
    have h2 : encodeTableKey [] (TableValue.int (-5)) = .ok (EncodeVarintFrag (-5)) := by
      decide
    rw [he] at h2
    injection h2 with h2
    rw [← h2]
    exact hd
  · exact c3_codec_roundtrip_order.2 (TableValue.int (-5)) (TableValue.int 3)
      (by decide) (by decide) (by decide) _ _ (by decide) (by decide)

/-- C7.  `decodePrimaryKey` first decodes the table-name prefix of the key;
whenever the decoded name differs from the bound model's, it returns the
"unexpected table name" error without decoding any primary-key field into the
record (it stops before the column loop); when the name matches, the
primary-key columns are decoded in the model's bound order and the undecoded
remainder of the key is returned. -/
theorem c7_table_name_check :
    (∀ (m : Model) (name rest : List Nat) (r : Rec), name ≠ m.name →
      m.decodePrimaryKey (EncodeBytes [] name ++ rest) r = .error unexpectedTableNameMsg)
    ∧ (∀ (m : Model) (src : Rec) (pk rest : List Nat) (r : Rec),
        pkValidB m src = true → m.encodePrimaryKey src = .ok pk →
        m.decodePrimaryKey (pk ++ rest) r
          = .ok (rest, writePKFields m m.primaryKey src r)) := by
  constructor
  · intro m name rest r hne
    have hdb : DecodeBytes (EncodeBytes [] name ++ rest) = .ok (rest, name) := by
      show ebDecode (([] ++ ebFrag name) ++ rest) = _
      rw [List.nil_append]
      exact ebDecode_ebFrag name rest
    unfold Model.decodePrimaryKey
    rw [hdb]
    simp [hne]
  · exact fun m src pk rest r hv he => Model.decodePrimaryKey_encode m src pk hv he rest r

/-- Witness for C7: decoding a key whose table-name prefix is "x" against the
"kv" model fails with the name error; decoding an encoded "kv" key with a
column suffix consumes exactly the primary key. -/
theorem c7_table_name_check_witness :
    witModel.decodePrimaryKey (EncodeBytes [] [120] ++ [1, 2]) (zeroRec witModel)
        = .error unexpectedTableNameMsg
    ∧ witModel.decodePrimaryKey (pkOfRec witModel witG1.src ++ [118]) (zeroRec witModel)
        = .ok ([118], writePKFields witModel witModel.primaryKey witG1.src
            (zeroRec witModel)) := by
  constructor
  · exact c7_table_name_check.1 witModel [120] [1, 2] (zeroRec witModel) (by decide)
  · exact c7_table_name_check.2 witModel witG1.src (pkOfRec witModel witG1.src) [118]
      (zeroRec witModel) (by decide) (by decide)

/-- C8.  NULL unmarshals to zero: for every destination field kind, applying
`unmarshalTableValue` to an absent source value (nil `*proto.Value`) sets the
destination to the zero value of its type and returns no error — so reading
back a deleted column yields the zero value rather than an error. -/
theorem c8_nil_unmarshals_to_zero (k : TableKind) :
    unmarshalTableValue none k = .ok (zeroValue k) := rfl

/-- C9.  Float representation split: `marshalTableValue` maps a float field to
the integer variant holding its IEEE-754 bit pattern as `int64`;
`unmarshalTableValue` inverts this exactly (identity on float fields); key
encoding of floats dispatches to the order-preserving numeric transform and
never produces the raw bit pattern. -/
theorem c9_float_representation (f : F64) (b : List Nat) :
    marshalTableValue (.float f) = .ok ⟨some (toInt64 f.val), none⟩
    ∧ unmarshalTableValue (some ⟨some (toInt64 f.val), none⟩) .float = .ok (.float f)
    ∧ encodeTableKey b (.float f) = .ok (b ++ EncodeNumericFloatFrag f)
    ∧ EncodeNumericFloatFrag f ≠ bePad 8 f.val := by
  refine ⟨rfl, ?_, rfl, ?_⟩
  · unfold unmarshalTableValue
    dsimp only
    rw [if_neg (by simp)]
    rw [show ProtoValue.getInteger ⟨some (toInt64 f.val), none⟩ = toInt64 f.val from rfl]
    rw [toUInt64_toInt64 f.val f.property]
    congr 2
    apply Subtype.ext
    show f.val % 2 ^ 64 = f.val
    exact Nat.mod_eq_of_lt f.property
  · intro heq
    have hval := congrArg beVal heq
    rw [EncodeNumericFloatFrag, beVal_bePad, beVal_bePad] at hval
    have hprop := f.property
    unfold F64.fbits at hval
    by_cases hv : f.val < 2 ^ 63
    · rw [if_pos hv] at hval
      omega
    · rw [if_neg hv] at hval
      omega

theorem ne_nil_of_isEmpty_false {α : Type} {l : List α} (h : l.isEmpty = false) :
    l ≠ [] := by
  cases l with
  | nil => exact absurd h (by simp)
  | cons a as => simp

theorem map_congr_mem {α β : Type} (l : List α) (f g : α → β)
    (h : ∀ a ∈ l, f a = g a) : l.map f = l.map g := by
  induction l with
  | nil => rfl
  | cons a as ih =>
    simp only [List.map_cons, List.cons.injEq]
    exact ⟨h a (List.mem_cons_self _ _), ih (fun a ha => h a (List.mem_cons_of_mem _ ha))⟩

/-- C1.  Scan reconstruction grouping: for every scan reply whose rows are
(columnKey, value) pairs sorted ascending by key — each columnKey an encoded
primary key followed by a raw (non-primary-key, unmarshalable) column name —
`ScanStruct`'s post-processing appends to the destination slice exactly one
record per distinct primary key observed, in ascending primary-key order
(each appended record carrying that primary key's identity fields); and if
the reply contains no rows, nothing is appended to the destination slice. -/
theorem c1_scan_grouping :
    (∀ (m : Model) (columns : List (List Nat)) (dest : List Rec),
      scanPost m columns [] dest = .ok dest)
    ∧ (∀ (m : Model) (gs : List ScanGroup) (dest : List Rec),
        gs.all (groupOK m none) = true →
        ascChain (gs.map (fun g => pkOfRec m g.src)) = true →
        ∃ recs, scanPost m [] (allGroupRows m gs) dest = .ok (dest ++ recs)
          ∧ recs.length = gs.length
          ∧ recs.map (pkProj m) = gs.map (fun g => pkProj m g.src)) := by
  constructor
  · intro m columns dest
    rfl
  · intro m gs dest hall hasc
    refine ⟨gs.map (groupRec m none), ?_, by simp, ?_⟩
    · have h := scanPost_groups m [] gs dest (by simpa using hall) hasc
      simpa using h
    · rw [List.map_map]
      apply map_congr_mem
      intro g hg
      simp only [Function.comp_apply]
      have hok := List.all_eq_true.mp hall g hg
      simp only [groupOK, Bool.and_eq_true, Bool.not_eq_true'] at hok
      exact pkProj_groupRec m none g hok.1.1 (ne_nil_of_isEmpty_false hok.1.2) hok.2

/-- Witness for C1: the spec's three-record shape at two records — scanning
the `kv` groups for "a" and "c" appends exactly two records in order, with
the right primary keys. -/
theorem c1_scan_grouping_witness :
    ∃ recs, scanPost witModel [] (allGroupRows witModel [witG1, witG2]) []
        = .ok ([] ++ recs)
      ∧ recs.length = [witG1, witG2].length
      ∧ recs.map (pkProj witModel)
          = [witG1, witG2].map (fun g => pkProj witModel g.src) :=
  c1_scan_grouping.2 witModel [witG1, witG2] [] (by decide) (by decide)

/-- C2.  Column filter preserves row identity: with a non-empty explicit
column list, each reply row's primary key is decoded into the current record
before the filter is consulted, and a filtered-out row skips only the value
assignment — so scanning with a filter that excludes all of a record's
columns still yields one output record per distinct primary key, with the
primary-key fields populated and all other fields left at their zero
value. -/
theorem c2_filter_preserves_identity (m : Model) (cs : List (List Nat))
    (gs : List ScanGroup) (dest : List Rec) (hcs : cs ≠ [])
    (hgs : ∀ g ∈ gs, pkValidB m g.src = true ∧ g.cols ≠ [] ∧
      ∀ cv ∈ g.cols, colElem cv.1 cs = false)
    (hasc : ascChain (gs.map (fun g => pkOfRec m g.src)) = true) :
    ∃ recs, scanPost m cs (allGroupRows m gs) dest = .ok (dest ++ recs)
      ∧ recs.length = gs.length
      ∧ recs.map (pkProj m) = gs.map (fun g => pkProj m g.src)
      ∧ ∀ r ∈ recs, ∀ j, ¬ pkTargets m m.primaryKey j →
          recGet r j = recGet (zeroRec m) j := by
  have hskip : ∀ g ∈ gs, ∀ cv ∈ g.cols, scanColsSkip (some cs) cv.1 = true := by
    intro g hg cv hcv
    have h := (hgs g hg).2.2 cv hcv
    simp [scanColsSkip, h]
  have hsc : (if cs.isEmpty then none else some cs)
      = (some cs : Option (List (List Nat))) := by
    rw [if_neg (by rw [isEmpty_false_of_ne hcs]; exact Bool.noConfusion)]
  have hall : gs.all (groupOK m (some cs)) = true := by
    rw [List.all_eq_true]
    intro g hg
    obtain ⟨hv, hne, hcols⟩ := hgs g hg
    simp only [groupOK, Bool.and_eq_true]
    refine ⟨⟨hv, ?_⟩, ?_⟩
    · rw [Bool.not_eq_true']
      rw [isEmpty_false_of_ne hne]
    · rw [List.all_eq_true]
      intro cv hcv
      simp only [colOK, Bool.or_eq_true]
      exact Or.inl (hskip g hg cv hcv)
  refine ⟨gs.map (groupRec m (some cs)), ?_, by simp, ?_, ?_⟩
  · have h := scanPost_groups m cs gs dest (by rw [hsc]; exact hall) hasc
    rw [hsc] at h
    exact h
  · rw [List.map_map]
    apply map_congr_mem
    intro g hg
    simp only [Function.comp_apply]
    obtain ⟨hv, hne, _⟩ := hgs g hg
    rw [groupRec_all_skip m (some cs) g hv hne (hskip g hg)]
    exact pkProj_writePK m g.src hv (zeroRec m) (by rw [zeroRec_length])
  · intro r hr j hnt
    rw [List.mem_map] at hr
    obtain ⟨g, hg, hgr⟩ := hr
    obtain ⟨hv, hne, _⟩ := hgs g hg
    rw [← hgr, groupRec_all_skip m (some cs) g hv hne (hskip g hg)]
    exact recGet_writePK_of_not m g.src _ _ _ hnt

/-- Witness for C2: filtering on column "z" (not a stored column) still
returns one record per primary key, identity populated, values zero. -/
theorem c2_filter_preserves_identity_witness :
    ∃ recs, scanPost witModel [[122]] (allGroupRows witModel [witG1, witG2]) []
        = .ok ([] ++ recs)
      ∧ recs.length = [witG1, witG2].length
      ∧ recs.map (pkProj witModel)
          = [witG1, witG2].map (fun g => pkProj witModel g.src)
      ∧ ∀ r ∈ recs, ∀ j, ¬ pkTargets witModel witModel.primaryKey j →
          recGet r j = recGet (zeroRec witModel) j :=
  c2_filter_preserves_identity witModel [[122]] [witG1, witG2] [] (by decide)
    (by decide) (by decide)

/-- C4.  Per-operation all-or-nothing call issuance: each structured
operation either records a synchronous error and appends no call (leaving the
batch's call list unchanged), or appends exactly one call per requested
column (Get/Put/Del; the bound model's other columns when the list is empty)
or exactly one call (Inc/Scan).  No operation ever appends a proper non-empty
subset of its calls. -/
theorem c4_all_or_nothing :
    (∀ (b : Batch) (db : DB) (obj : ObjArg) (cols : List (List Nat)),
      (∃ e, Batch.GetStruct b db obj cols
          = { calls := b.calls, results := b.results ++ [⟨0, some e⟩] })
      ∨ (∃ m cs, db.getModel obj.typ true = .ok m
          ∧ Batch.GetStruct b db obj cols
              = { calls := b.calls ++ cs, results := b.results ++ [⟨cs.length, none⟩] }
          ∧ cs.length = (if cols.isEmpty then m.otherColumns else cols).length))
    ∧ (∀ (b : Batch) (db : DB) (obj : ObjArg) (cols : List (List Nat)),
      (∃ e, Batch.PutStruct b db obj cols
          = { calls := b.calls, results := b.results ++ [⟨0, some e⟩] })
      ∨ (∃ m cs, db.getModel (indirect obj.typ) false = .ok m
          ∧ Batch.PutStruct b db obj cols
              = { calls := b.calls ++ cs, results := b.results ++ [⟨cs.length, none⟩] }
          ∧ cs.length = (if cols.isEmpty then m.otherColumns else cols).length))
    ∧ (∀ (b : Batch) (db : DB) (obj : ObjArg) (value : Int) (column : List Nat),
      (∃ e, Batch.IncStruct b db obj value column
          = { calls := b.calls, results := b.results ++ [⟨0, some e⟩] })
      ∨ (∃ c, Batch.IncStruct b db obj value column
          = { calls := b.calls ++ [c], results := b.results ++ [⟨1, none⟩] }))
    ∧ (∀ (b : Batch) (db : DB) (destTyp : GoType) (start endArg : ObjArg)
        (maxRows : Int) (cols : List (List Nat)),
      (∃ e, Batch.ScanStruct b db destTyp start endArg maxRows cols
          = { calls := b.calls, results := b.results ++ [⟨0, some e⟩] })
      ∨ (∃ c, Batch.ScanStruct b db destTyp start endArg maxRows cols
          = { calls := b.calls ++ [c], results := b.results ++ [⟨1, none⟩] }))
    ∧ (∀ (b : Batch) (db : DB) (obj : ObjArg) (cols : List (List Nat)),
      (∃ e, Batch.DelStruct b db obj cols
          = { calls := b.calls, results := b.results ++ [⟨0, some e⟩] })
      ∨ (∃ m cs, db.getModel (indirect obj.typ) false = .ok m
          ∧ Batch.DelStruct b db obj cols
              = { calls := b.calls ++ cs, results := b.results ++ [⟨cs.length, none⟩] }
          ∧ cs.length = (if cols.isEmpty then m.otherColumns else cols).length)) := by
  refine ⟨?_, ?_, ?_, ?_, ?_⟩
  · intro b db obj cols
    unfold Batch.GetStruct
    cases hm : db.getModel obj.typ true with
    | error e => exact Or.inl ⟨e, rfl⟩
    | ok m =>
      dsimp only
      cases hpk : m.encodePrimaryKey obj.record with
      | error e => exact Or.inl ⟨e, rfl⟩
      | ok pk =>
        dsimp only
        cases hcs : getCallsLoop m pk (if cols.isEmpty then m.otherColumns else cols) with
        | error e => exact Or.inl ⟨e, rfl⟩
        | ok cs =>
          exact Or.inr ⟨m, cs, rfl, rfl, getCallsLoop_length m pk _ cs hcs⟩
  · intro b db obj cols
    unfold Batch.PutStruct
    cases hm : db.getModel (indirect obj.typ) false with
    | error e => exact Or.inl ⟨e, rfl⟩
    | ok m =>
      dsimp only
      cases hpk : m.encodePrimaryKey obj.record with
      | error e => exact Or.inl ⟨e, rfl⟩
      | ok pk =>
        dsimp only
        cases hcs : putCallsLoop m pk obj.record
            (if cols.isEmpty then m.otherColumns else cols) with
        | error e => exact Or.inl ⟨e, rfl⟩
        | ok cs =>
          exact Or.inr ⟨m, cs, rfl, rfl, putCallsLoop_length m pk _ _ cs hcs⟩
  · intro b db obj value column
    unfold Batch.IncStruct
    cases hm : db.getModel obj.typ true with
    | error e => exact Or.inl ⟨e, rfl⟩
    | ok m =>
      dsimp only
      cases hpk : m.encodePrimaryKey obj.record with
      | error e => exact Or.inl ⟨e, rfl⟩
      | ok pk =>
        dsimp only
        cases hlk : lookupField m.fields column with
        | none => exact Or.inl ⟨unableToFindFieldMsg, rfl⟩
        | some ik => exact Or.inr ⟨_, rfl⟩
  · intro b db destTyp start endArg maxRows cols
    unfold Batch.ScanStruct
    cases destTyp with
    | structT id fs => exact Or.inl ⟨destSliceMsg, rfl⟩
    | sliceT t => exact Or.inl ⟨destSliceMsg, rfl⟩
    | otherT id => exact Or.inl ⟨destSliceMsg, rfl⟩
    | ptrT inner =>
      cases inner with
      | structT id fs => exact Or.inl ⟨destSliceMsg, rfl⟩
      | ptrT t => exact Or.inl ⟨destSliceMsg, rfl⟩
      | otherT id => exact Or.inl ⟨destSliceMsg, rfl⟩
      | sliceT elemT =>
        dsimp only
        cases hm : db.getModel (indirect elemT) false with
        | error e => exact Or.inl ⟨e, rfl⟩
        | ok m =>
          dsimp only
          by_cases hst : indirect start.typ ≠ indirect elemT
          · rw [if_pos hst]
            exact Or.inl ⟨incompatibleStartMsg, rfl⟩
          · rw [if_neg hst]
            by_cases het : indirect endArg.typ ≠ indirect elemT
            · rw [if_pos het]
              exact Or.inl ⟨incompatibleEndMsg, rfl⟩
            · rw [if_neg het]
              cases hs : m.encodePrimaryKey start.record with
              | error e => exact Or.inl ⟨e, rfl⟩
              | ok startKey =>
                dsimp only
                cases he : m.encodePrimaryKey endArg.record with
                | error e => exact Or.inl ⟨e, rfl⟩
                | ok endKey => exact Or.inr ⟨_, rfl⟩
  · intro b db obj cols
    unfold Batch.DelStruct
    cases hm : db.getModel (indirect obj.typ) false with
    | error e => exact Or.inl ⟨e, rfl⟩
    | ok m =>
      dsimp only
      cases hpk : m.encodePrimaryKey obj.record with
      | error e => exact Or.inl ⟨e, rfl⟩
      | ok pk =>
        dsimp only
        cases hcs : delCallsLoop m pk (if cols.isEmpty then m.otherColumns else cols) with
        | error e => exact Or.inl ⟨e, rfl⟩
        | ok cs =>
          exact Or.inr ⟨m, cs, rfl, rfl, delCallsLoop_length m pk _ cs hcs⟩

theorem lookupModel_append_self (l : List (GoType × Model)) (t : GoType) (m : Model)
    (hfree : lookupModel l t = none) : lookupModel (l ++ [(t, m)]) t = some m := by
  induction l with
  | nil => simp [lookupModel]
  | cons e l ih =>
    obtain ⟨t0, m0⟩ := e
    simp only [lookupModel] at hfree ⊢
    by_cases ht : t0 = t
    · rw [if_pos ht] at hfree
      exact Option.noConfusion hfree
    · rw [if_neg ht] at hfree ⊢
      exact ih hfree

/-- C5 counterexample: binding with a primary-key column ([120] = "x") that is
not among the record type's fields does NOT fail at bind time — `BindModel`
returns ok, so the claimed bind-time "unable to find field" error does not
occur. -/
theorem c5_counterexample :
    exceptOk (witDB0.BindModel [107, 118] witKVType [[120]]) = true := by decide

/-- C5 amended.  `BindModel` does not validate the supplied primary-key
column names (the source carries a TODO for this): binding with an unknown
primary-key column succeeds, and the "unable to find field" error is instead
returned by `encodePrimaryKey` — i.e. by the first structured operation that
uses the binding — for every record value. -/
theorem c5_bind_defers_field_check (db : DB) (name : List Nat) (id : String)
    (fields : FieldMap) (col : List Nat) (rest : List (List Nat))
    (hfree : lookupModel db.models (GoType.structT id fields) = none)
    (hmiss : lookupField fields col = none) :
    ∃ db', db.BindModel name (.structT id fields) (col :: rest) = .ok db'
      ∧ ∃ m, lookupModel db'.models (.structT id fields) = some m
        ∧ ∀ r : Rec, m.encodePrimaryKey r = .error unableToFindFieldMsg := by
  unfold DB.BindModel
  dsimp only
  have hderef : deref (GoType.structT id fields) = .structT id fields := rfl
  rw [hderef, hfree]
  refine ⟨_, rfl, ?_⟩
  refine ⟨_, lookupModel_append_self db.models _ _ hfree, ?_⟩
  intro r
  unfold Model.encodePrimaryKey encodePKFields
  rw [hmiss]

/-- Witness for C5 amended: the concrete `KV` type bound with unknown
primary-key column "x". -/
theorem c5_bind_defers_field_check_witness :
    ∃ db', witDB0.BindModel [107, 118] witKVType [[120]] = .ok db'
      ∧ ∃ m, lookupModel db'.models witKVType = some m
        ∧ ∀ r : Rec, m.encodePrimaryKey r = .error unableToFindFieldMsg :=
  c5_bind_defers_field_check witDB0 [107, 118] "KV"
    [([107], TableKind.str), ([118], TableKind.str)] [120] [] (by decide) (by decide)

/-- C6 counterexample: with the `KV` type already bound to table name "kv",
binding a *different* record type to the same table name succeeds — the
claimed "fails when the table name is already bound to a different record
type" behaviour does not exist (the registry is keyed by type only). -/
theorem c6_counterexample :
    exceptOk (witDB1.BindModel [107, 118] witKV2Type [[97]]) = true := by decide

/-- C6 amended.  `BindModel` returns the "already defined" error exactly when
the same record type is already bound (and then returns before any registry
insert, leaving the registry without a new binding); binding a fresh record
type always succeeds — no table-name uniqueness check is performed, so a
second type can be bound to an already-used name. -/
theorem c6_binding_uniqueness :
    (∀ (db : DB) (name : List Nat) (t : GoType) (pk : List (List Nat)) (m0 : Model),
      lookupModel db.models (deref t) = some m0 →
      db.BindModel name t pk = .error alreadyDefinedMsg)
    ∧ (∀ (db : DB) (name : List Nat) (id : String) (fields : FieldMap)
        (pk : List (List Nat)),
        lookupModel db.models (.structT id fields) = none →
        ∃ mnew, db.BindModel name (.structT id fields) pk
            = .ok ⟨db.models ++ [(.structT id fields, mnew)]⟩
          ∧ mnew.name = name) := by
  constructor
  · intro db name t pk m0 hbound
    unfold DB.BindModel
    dsimp only
    rw [hbound]
  · intro db name id fields pk hfree
    unfold DB.BindModel
    dsimp only
    have hderef : deref (GoType.structT id fields) = .structT id fields := rfl
    rw [hderef, hfree]
    exact ⟨_, rfl, rfl⟩

/-- Witness for C6 amended: rebinding the bound `KV` type fails with "already
defined"; binding the fresh `KV2` type (to the already-used name!)
succeeds. -/
theorem c6_binding_uniqueness_witness :
    witDB1.BindModel [107, 118] witKVType [[107]] = .error alreadyDefinedMsg
    ∧ ∃ mnew, witDB1.BindModel [107, 118] witKV2Type [[97]]
        = .ok ⟨witDB1.models ++ [(witKV2Type, mnew)]⟩ ∧ mnew.name = [107, 118] :=
  ⟨c6_binding_uniqueness.1 witDB1 [107, 118] witKVType [[107]] witModel (by decide),
   c6_binding_uniqueness.2 witDB1 [107, 118] "KV2" [([97], TableKind.int)] [[97]]
     (by decide)⟩

/-- C10.  `encodeColumnKey` returns a freshly allocated byte sequence equal
to the primary key followed by the raw column-name bytes, and never modifies
or aliases the `primaryKey` argument: for every heap, every (heap-resident)
primary-key slice and all column names, the built key reads as
`primaryKey ++ column`; the primary key's buffer — like every pre-existing
buffer — is unchanged; the key's buffer is never the primary key's; and
building two column keys in sequence from the same primary-key slice yields
two keys with the unchanged primary key as prefix and pairwise distinct
backing buffers. -/
theorem c10_column_key_fresh (grow : Nat → Nat) (h : Heap) (pk : GoSlice)
    (c1 c2 : List Nat) (hwf : ∀ j, pk.buf = some j → j < h.length) :
    (readSlice (encodeColumnKeyGo grow h pk c1).1 (encodeColumnKeyGo grow h pk c1).2
        = readSlice h pk ++ c1)
    ∧ (∀ j, j < h.length → heapGet (encodeColumnKeyGo grow h pk c1).1 j = heapGet h j)
    ∧ readSlice (encodeColumnKeyGo grow h pk c1).1 pk = readSlice h pk
    ∧ (∀ j, pk.buf = some j → (encodeColumnKeyGo grow h pk c1).2.buf ≠ some j)
    ∧ (readSlice (encodeColumnKeyGo grow (encodeColumnKeyGo grow h pk c1).1 pk c2).1
          (encodeColumnKeyGo grow h pk c1).2 = readSlice h pk ++ c1
      ∧ readSlice (encodeColumnKeyGo grow (encodeColumnKeyGo grow h pk c1).1 pk c2).1
          (encodeColumnKeyGo grow (encodeColumnKeyGo grow h pk c1).1 pk c2).2
          = readSlice h pk ++ c2
      ∧ ∀ j1 j2, (encodeColumnKeyGo grow h pk c1).2.buf = some j1 →
          (encodeColumnKeyGo grow (encodeColumnKeyGo grow h pk c1).1 pk c2).2.buf
            = some j2 → j1 ≠ j2) := by
  obtain ⟨hread1, hheap1, hfresh1⟩ := encodeColumnKeyGo_spec grow h pk c1
  have hpk1 : readSlice (encodeColumnKeyGo grow h pk c1).1 pk = readSlice h pk := by
    unfold readSlice
    cases hb : pk.buf with
    | none => rfl
    | some j =>
      dsimp only
      rw [hheap1 j (hwf j hb)]
  obtain ⟨hread2, hheap2, hfresh2⟩ :=
    encodeColumnKeyGo_spec grow (encodeColumnKeyGo grow h pk c1).1 pk c2
  refine ⟨hread1, hheap1, hpk1, ?_, ?_, ?_, ?_⟩
  · intro j hb hcon
    rcases hfresh1 with hnone | ⟨j', hj', hge, _⟩
    · rw [hnone] at hcon; exact Option.noConfusion hcon
    · rw [hj'] at hcon
      injection hcon with hcon
      have := hwf j hb
      omega
  · rcases hfresh1 with hnone | ⟨j', hj', hge, hlt⟩
    · unfold readSlice
      rw [hnone]
      rw [show readSlice (encodeColumnKeyGo grow h pk c1).1
          (encodeColumnKeyGo grow h pk c1).2 = [] from by unfold readSlice; rw [hnone]]
        at hread1
      exact hread1
    · unfold readSlice
      rw [hj']
      dsimp only
      rw [hheap2 j' hlt]
      rw [show readSlice (encodeColumnKeyGo grow h pk c1).1
            (encodeColumnKeyGo grow h pk c1).2
          = ((heapGet (encodeColumnKeyGo grow h pk c1).1 j').drop
              (encodeColumnKeyGo grow h pk c1).2.off).take
              (encodeColumnKeyGo grow h pk c1).2.len
          from by unfold readSlice; rw [hj']] at hread1
      exact hread1
  · rw [hread2]
    have : readSlice (encodeColumnKeyGo grow h pk c1).1 pk = readSlice h pk := hpk1
    rw [this]
  · intro j1 j2 hb1 hb2
    rcases hfresh2 with hnone | ⟨j', hj', hge, _⟩
    · rw [hnone] at hb2; exact Option.noConfusion hb2
    · rw [hj'] at hb2
      injection hb2 with hb2
      subst hb2
      rcases hfresh1 with hnone1 | ⟨j1', hj1', hge1, hlt1⟩
      · rw [hnone1] at hb1; exact Option.noConfusion hb1
      · rw [hj1'] at hb1
        injection hb1 with hb1
        subst hb1
        omega

/-- Witness for C10 at a concrete heap: one existing buffer holding the
primary key, two column keys "5" and "6". -/
theorem c10_column_key_fresh_witness :
    (readSlice (encodeColumnKeyGo id [[1, 2]] ⟨some 0, 0, 2, 2⟩ [5]).1
        (encodeColumnKeyGo id [[1, 2]] ⟨some 0, 0, 2, 2⟩ [5]).2
        = readSlice [[1, 2]] ⟨some 0, 0, 2, 2⟩ ++ [5])
    ∧ (∀ j, j < ([[1, 2]] : Heap).length →
        heapGet (encodeColumnKeyGo id [[1, 2]] ⟨some 0, 0, 2, 2⟩ [5]).1 j
          = heapGet [[1, 2]] j)
    ∧ readSlice (encodeColumnKeyGo id [[1, 2]] ⟨some 0, 0, 2, 2⟩ [5]).1
        ⟨some 0, 0, 2, 2⟩ = readSlice [[1, 2]] ⟨some 0, 0, 2, 2⟩
    ∧ (∀ j, (⟨some 0, 0, 2, 2⟩ : GoSlice).buf = some j →
        (encodeColumnKeyGo id [[1, 2]] ⟨some 0, 0, 2, 2⟩ [5]).2.buf ≠ some j)
    ∧ (readSlice (encodeColumnKeyGo id
            (encodeColumnKeyGo id [[1, 2]] ⟨some 0, 0, 2, 2⟩ [5]).1
            ⟨some 0, 0, 2, 2⟩ [6]).1
          (encodeColumnKeyGo id [[1, 2]] ⟨some 0, 0, 2, 2⟩ [5]).2
          = readSlice [[1, 2]] ⟨some 0, 0, 2, 2⟩ ++ [5]
      ∧ readSlice (encodeColumnKeyGo id
            (encodeColumnKeyGo id [[1, 2]] ⟨some 0, 0, 2, 2⟩ [5]).1
            ⟨some 0, 0, 2, 2⟩ [6]).1
          (encodeColumnKeyGo id
            (encodeColumnKeyGo id [[1, 2]] ⟨some 0, 0, 2, 2⟩ [5]).1
            ⟨some 0, 0, 2, 2⟩ [6]).2
          = readSlice [[1, 2]] ⟨some 0, 0, 2, 2⟩ ++ [6]
      ∧ ∀ j1 j2, (encodeColumnKeyGo id [[1, 2]] ⟨some 0, 0, 2, 2⟩ [5]).2.buf = some j1 →
          (encodeColumnKeyGo id
            (encodeColumnKeyGo id [[1, 2]] ⟨some 0, 0, 2, 2⟩ [5]).1
            ⟨some 0, 0, 2, 2⟩ [6]).2.buf = some j2 → j1 ≠ j2) :=
  c10_column_key_fresh id [[1, 2]] ⟨some 0, 0, 2, 2⟩ [5] [6]
    (by intro j hj; injection hj with hj; subst hj; decide)

end CrTable
